import Mathlib

/-!
# wchip8: a shallow embedding of `src/main.cpp`

The CHIP-8 virtual machine of `src/main.cpp` is embedded as pure functions on an
explicit state record.

* The fixed-size C++ arrays are total maps `Nat → Nat`; every array access whose
  index is computed at run time is guarded by the size of the array, and a step that
  would index outside an array has no defined result (`none`).
* `std::uint8_t` and `std::uint16_t` values are natural numbers; every narrowing
  store of an `int` expression is written with an explicit `% 256` or `% 65536`.
* `rand()` is an external call: the value it returns in a step is the parameter `rnd`.
-/

namespace WChip8

/-! ## Constants -/

def memory_size : Nat := 4096
def register_size : Nat := 16
def graphics_width : Nat := 64
def graphics_height : Nat := 32
def graphics_size : Nat := graphics_width * graphics_height
def stack_size : Nat := 16
def keyboard_size : Nat := 16
def program_start : Nat := 0x200
def font_characters : Nat := 16
def font_height : Nat := 5
def font_size : Nat := font_characters * font_height

def font_data : List Nat :=
  [0xF0, 0x90, 0x90, 0x90, 0xF0, 0x20, 0x60, 0x20, 0x20, 0x70, 0xF0, 0x10,
   0xF0, 0x80, 0xF0, 0xF0, 0x10, 0xF0, 0x10, 0xF0, 0x90, 0x90, 0xF0, 0x10,
   0x10, 0xF0, 0x80, 0xF0, 0x10, 0xF0, 0xF0, 0x80, 0xF0, 0x90, 0xF0, 0xF0,
   0x10, 0x20, 0x40, 0x40, 0xF0, 0x90, 0xF0, 0x90, 0xF0, 0xF0, 0x90, 0xF0,
   0x10, 0xF0, 0xF0, 0x90, 0xF0, 0x90, 0x90, 0xE0, 0x90, 0xE0, 0x90, 0xE0,
   0xF0, 0x80, 0x80, 0x80, 0xF0, 0xE0, 0x90, 0x90, 0x90, 0xE0, 0xF0, 0x80,
   0xF0, 0x80, 0xF0, 0xF0, 0x80, 0xF0, 0x80, 0x80]

/-! ## State -/

/-- The record `Chip8_state` (the unused `pad` member is left out). -/
structure Chip8_state where
  memory : Nat → Nat
  v : Nat → Nat
  i : Nat
  pc : Nat
  stack : Nat → Nat
  sp : Nat
  graphics : Nat → Nat
  delay_timer : Nat
  sound_timer : Nat
  keyboard : Nat → Nat
  draw : Nat

/-- The value-initialised state `Chip8_state{}` created in `main`. -/
def initial_state : Chip8_state where
  memory := fun _ => 0
  v := fun _ => 0
  i := 0
  pc := program_start
  stack := fun _ => 0
  sp := 0
  graphics := fun _ => 0
  delay_timer := 0
  sound_timer := 0
  keyboard := fun _ => 0
  draw := 0

/-- Array store `a[k] = val`. -/
def store (a : Nat → Nat) (k val : Nat) : Nat → Nat :=
  fun j => if j = k then val else a j

/-- The block copy `memcpy(&a[start], bytes, bytes.length)`. -/
def copy_block (a : Nat → Nat) (start : Nat) (bytes : List Nat) : Nat → Nat :=
  fun j => if start ≤ j ∧ j < start + bytes.length then bytes.getD (j - start) 0 else a j

/-- The function `load_font`: the 80 glyph bytes go to the start of memory. -/
def load_font (state : Chip8_state) : Chip8_state :=
  { state with memory := copy_block state.memory 0 font_data }

/-- The loop `for (k = 0; k < count; ++k) body`, run on a state threaded through the
iterations in ascending order; an iteration without a defined result ends the run. -/
def for_loop {σ : Type} (body : Nat → σ → Option σ) : Nat → σ → Option σ
  | 0, st => some st
  | k + 1, st => (for_loop body k st).bind (body k)

/-! ## Instruction fetch and decode -/

/-- The opcode word read at the program counter (big-endian), when both bytes lie
inside `memory`. -/
def fetch (state : Chip8_state) : Option Nat :=
  if state.pc < memory_size ∧ state.pc + 1 < memory_size then
    some ((((state.memory state.pc <<< 8) % 65536) ||| state.memory (state.pc + 1)) % 65536)
  else none

def op_first (opcode : Nat) : Nat := (opcode >>> 12) &&& 0x000F
def op_nnn (opcode : Nat) : Nat := opcode &&& 0x0FFF
def op_nn (opcode : Nat) : Nat := opcode &&& 0x00FF
def op_n (opcode : Nat) : Nat := opcode &&& 0x000F
def op_x (opcode : Nat) : Nat := (opcode >>> 8) &&& 0x0F
def op_y (opcode : Nat) : Nat := (opcode >>> 4) &&& 0x0F

/-- The statement `state.pc += 2`. -/
def advance (state : Chip8_state) : Chip8_state :=
  { state with pc := (state.pc + 2) % 65536 }

/-- The two timer decrements that end `process_instruction`. -/
def tick_timers (state : Chip8_state) : Chip8_state :=
  let s1 := if state.delay_timer > 0 then
      { state with delay_timer := state.delay_timer - 1 } else state
  if s1.sound_timer > 0 then { s1 with sound_timer := s1.sound_timer - 1 } else s1

/-! ## Instruction families -/

/-- Family `0x0`: clear screen, return, and the words that match neither. -/
def exec_0 (opcode : Nat) (state : Chip8_state) : Option Chip8_state :=
  if opcode = 0x00E0 then
    some (advance { state with
      graphics := fun k => if k < graphics_size then 0 else state.graphics k
      draw := 1 })
  else if opcode = 0x00EE then
    if state.sp < stack_size then
      some (advance { state with
        pc := state.stack state.sp
        sp := (state.sp + 65535) % 65536 })
    else none
  else some (advance state)

/-- Family `0x2`: call. The stack pointer is incremented before the store. -/
def exec_2 (nnn : Nat) (state : Chip8_state) : Option Chip8_state :=
  let s1 := { state with sp := (state.sp + 1) % 65536 }
  if s1.sp < stack_size then
    some { s1 with stack := store s1.stack s1.sp s1.pc, pc := nnn }
  else none

/-- Family `0x8`: the two-register operations, selected by the low nibble. Each flag
store is a statement of its own that runs before the destination is written. -/
def exec_8 (n x y : Nat) (state : Chip8_state) : Chip8_state :=
  let s1 : Chip8_state :=
    match n with
    | 0x0 => { state with v := store state.v x (state.v y) }
    | 0x1 => { state with v := store state.v x ((state.v x ||| state.v y) % 256) }
    | 0x2 => { state with v := store state.v x ((state.v x &&& state.v y) % 256) }
    | 0x3 => { state with v := store state.v x ((state.v x ^^^ state.v y) % 256) }
    | 0x4 =>
      let f := { state with
        v := store state.v 0xF (if state.v x + state.v y > 255 then 1 else 0) }
      { f with v := store f.v x ((f.v x + f.v y) % 256) }
    | 0x5 =>
      let f := { state with v := store state.v 0xF (if state.v x > state.v y then 1 else 0) }
      { f with v := store f.v x (((f.v x : Int) - (f.v y : Int)) % 256).toNat }
    | 0x6 =>
      let f := { state with v := store state.v 0xF ((state.v x &&& 0x1) % 256) }
      { f with v := store f.v x ((f.v x >>> 1) % 256) }
    | 0x7 =>
      let f := { state with v := store state.v 0xF (if state.v y > state.v x then 1 else 0) }
      { f with v := store f.v x (((f.v y : Int) - (f.v x : Int)) % 256).toNat }
    | 0xE =>
      let f := { state with v := store state.v 0xF ((state.v x >>> 7) % 256) }
      { f with v := store f.v x ((f.v x <<< 1) % 256) }
    | _ => state
  advance s1

/-- One column of the sprite blit: the body of the inner `xline` loop. The framebuffer
is read and written only when the sprite bit is set. -/
def draw_pixel (xx yy yline pixel xline : Nat) (state : Chip8_state) : Option Chip8_state :=
  if pixel &&& (128 >>> xline) ≠ 0 then
    if xx + xline + (yy + yline) * graphics_width < graphics_size then
      let s1 := if state.graphics (xx + xline + (yy + yline) * graphics_width) = 1 then
          { state with v := store state.v 0xF 1 } else state
      some { s1 with
        graphics := store s1.graphics (xx + xline + (yy + yline) * graphics_width)
          ((s1.graphics (xx + xline + (yy + yline) * graphics_width) ^^^ 1) % 256) }
    else none
  else some state

/-- One sprite row: the body of the outer `yline` loop. -/
def draw_row (xx yy yline : Nat) (state : Chip8_state) : Option Chip8_state :=
  if state.i + yline < memory_size then
    for_loop (draw_pixel xx yy yline (state.memory (state.i + yline))) 8 state
  else none

/-- Family `0xD`: sprite draw. -/
def exec_D (opcode : Nat) (state : Chip8_state) : Option Chip8_state :=
  let xx := state.v ((opcode &&& 0x0F00) >>> 8)
  let yy := state.v ((opcode &&& 0x00F0) >>> 4)
  let height := opcode &&& 0x000F
  let s1 := { state with v := store state.v 0xF 0 }
  (for_loop (draw_row xx yy) height s1).map (fun s2 => advance { s2 with draw := 1 })

/-- Family `0xE`: skip on key state; the keyboard is indexed by `v[x]`. -/
def exec_E (nn x : Nat) (state : Chip8_state) : Option Chip8_state :=
  if nn = 0x9E then
    if state.v x < keyboard_size then
      some (advance (if state.keyboard (state.v x) = 1 then advance state else state))
    else none
  else if nn = 0xA1 then
    if state.v x < keyboard_size then
      some (advance (if state.keyboard (state.v x) = 0 then advance state else state))
    else none
  else some (advance state)

/-- The body of the key scan of `Fx0A`, on the state and the local `key_pressed`. -/
def key_scan (x k : Nat) (acc : Chip8_state × Bool) : Option (Chip8_state × Bool) :=
  if acc.1.keyboard k ≠ 0 then
    some ({ acc.1 with v := store acc.1.v x k }, true)
  else some acc

/-- The body of the register store loop of `Fx55`. -/
def store_reg (k : Nat) (state : Chip8_state) : Option Chip8_state :=
  if state.i + k < memory_size then
    some { state with memory := store state.memory (state.i + k) (state.v k) }
  else none

/-- The body of the register load loop of `Fx65`. -/
def load_reg (k : Nat) (state : Chip8_state) : Option Chip8_state :=
  if state.i + k < memory_size then
    some { state with v := store state.v k (state.memory (state.i + k)) }
  else none

/-- A guarded store into `memory`. -/
def write_memory (state : Chip8_state) (k val : Nat) : Option Chip8_state :=
  if k < memory_size then some { state with memory := store state.memory k val } else none

/-- Family `0xF`. The Boolean of the result is `false` exactly when the function
returns early: `Fx0A` with no key down, which skips the program counter advance and
the timers. -/
def exec_F (nn x : Nat) (state : Chip8_state) : Option (Chip8_state × Bool) :=
  if nn = 0x07 then
    some (advance { state with v := store state.v x state.delay_timer }, true)
  else if nn = 0x0A then
    (for_loop (key_scan x) keyboard_size (state, false)).map
      (fun r => if r.2 = false then (r.1, false) else (advance r.1, true))
  else if nn = 0x15 then
    some (advance { state with delay_timer := state.v x }, true)
  else if nn = 0x18 then
    some (advance { state with sound_timer := state.v x }, true)
  else if nn = 0x1E then
    some (advance { state with i := (state.i + state.v x) % 65536 }, true)
  else if nn = 0x29 then
    some (advance { state with i := (state.v x * font_height) % 65536 }, true)
  else if nn = 0x33 then
    ((write_memory state state.i ((state.v x / 100) % 256)).bind (fun s1 =>
      (write_memory s1 (s1.i + 1) (((s1.v x / 10) % 10) % 256)).bind (fun s2 =>
        write_memory s2 (s2.i + 2) (((s2.v x % 100) % 10) % 256)))).map
      (fun s3 => (advance s3, true))
  else if nn = 0x55 then
    (for_loop store_reg x state).map
      (fun s1 => (advance { s1 with i := (s1.i + (x + 1)) % 65536 }, true))
  else if nn = 0x65 then
    (for_loop load_reg x state).map
      (fun s1 => (advance { s1 with i := (s1.i + (x + 1)) % 65536 }, true))
  else some (advance state, true)

/-- The switch on the high nibble. The Boolean of the result tells whether control
reaches the timer code after the switch. -/
def execute (rnd opcode : Nat) (state : Chip8_state) : Option (Chip8_state × Bool) :=
  let nnn := op_nnn opcode
  let nn := op_nn opcode
  let n := op_n opcode
  let x := op_x opcode
  let y := op_y opcode
  match op_first opcode with
  | 0x0 => (exec_0 opcode state).map (fun s1 => (s1, true))
  | 0x1 => some ({ state with pc := nnn }, true)
  | 0x2 => (exec_2 nnn state).map (fun s1 => (s1, true))
  | 0x3 => some ({ state with pc := (state.pc + (if state.v x = nn then 4 else 2)) % 65536 }, true)
  | 0x4 => some ({ state with pc := (state.pc + (if state.v x ≠ nn then 4 else 2)) % 65536 }, true)
  | 0x5 => some (advance (if state.v x = state.v y then advance state else state), true)
  | 0x6 => some (advance { state with v := store state.v x nn }, true)
  | 0x7 => some (advance { state with v := store state.v x ((state.v x + nn) % 256) }, true)
  | 0x8 => some (exec_8 n x y state, true)
  | 0x9 => some (advance (if state.v x ≠ state.v y then advance state else state), true)
  | 0xA => some (advance { state with i := nnn }, true)
  | 0xB => some ({ state with pc := (nnn + state.v 0) % 65536 }, true)
  | 0xC => some (advance { state with v := store state.v x (((rnd % 0xFF) &&& nn) % 256) }, true)
  | 0xD => (exec_D opcode state).map (fun s1 => (s1, true))
  | 0xE => (exec_E nn x state).map (fun s1 => (s1, true))
  | 0xF => exec_F nn x state
  | _ => some (state, true)

/-- The function `process_instruction`: fetch, clear the draw flag, dispatch, and,
unless the instruction returned early, decrement the timers. -/
def process_instruction (rnd : Nat) (state : Chip8_state) : Option Chip8_state :=
  (fetch state).bind (fun opcode =>
    (execute rnd opcode { state with draw := 0 }).map
      (fun r => if r.2 = true then tick_timers r.1 else r.1))

/-- The sixteen key flags as `main` writes them before a step, from the snapshot
`keys` of the host keyboard. -/
def set_keys (keys : Nat → Nat) (state : Chip8_state) : Chip8_state :=
  { state with keyboard := fun k => if k < keyboard_size then keys k else state.keyboard k }

/-- Successive calls of `process_instruction` as `main` issues them: before call `k`
the host writes the key snapshot `keys k`, and `rnd k` is what `rand()` returns in that
call. The exit tests and the rendering of the host loop are not part of it. -/
def run (rnd : Nat → Nat) (keys : Nat → Nat → Nat) : Nat → Chip8_state → Option Chip8_state
  | 0, state => some state
  | k + 1, state =>
    (run rnd keys k state).bind (fun s1 => process_instruction (rnd k) (set_keys (keys k) s1))

/-! ## Loading and the host loop -/

/-- What the host library reports for the file handed to `load_rom`: it cannot be
opened, its size cannot be read, or it is read in full as `bytes`. -/
inductive Rom_file where
  | unopened
  | unsized
  | readable (bytes : List Nat)

/-- The two exceptions `load_rom` throws. -/
inductive Load_error where
  | open_failed
  | size_failed
  deriving DecidableEq

/-- The function `load_rom`. It throws on a file that cannot be opened or sized;
otherwise it copies all the bytes to `memory` from `program_start` on. There is no
test of the size against the room left in `memory`: a copy that runs past the end of
the array has no defined result (`none`). -/
def load_rom (state : Chip8_state) (file : Rom_file) : Except Load_error (Option Chip8_state) :=
  match file with
  | Rom_file.unopened => Except.error Load_error.open_failed
  | Rom_file.unsized => Except.error Load_error.size_failed
  | Rom_file.readable bytes =>
    if program_start + bytes.length ≤ memory_size then
      Except.ok (some { state with memory := copy_block state.memory program_start bytes })
    else Except.ok none

/-- The exit test `state.pc >= sizeof(state.memory)` of the loop in `main`, negated:
the states on which the loop goes on to call `process_instruction`. -/
def host_admits (state : Chip8_state) : Bool :=
  !(decide (state.pc ≥ memory_size))

/-- The two indices at which the fetch of `process_instruction` reads `memory`. -/
def fetch_reads (state : Chip8_state) : List Nat :=
  [state.pc, state.pc + 1]

/-- The index at which the step on `opcode` accesses `stack`, if it does: the read
`stack[sp]` of the return `00EE`, and the write `stack[sp]` of a call `2nnn`, which
comes after the increment of `sp`. -/
def stack_access (state : Chip8_state) (opcode : Nat) : Option Nat :=
  if op_first opcode = 0x0 ∧ opcode = 0x00EE then some state.sp
  else if op_first opcode = 0x2 then some ((state.sp + 1) % 65536)
  else none

/-! ## Vocabulary of the statements -/

/-- Everything but the registers and the framebuffer is the same in both states. -/
def same_machine (s t : Chip8_state) : Prop :=
  t.memory = s.memory ∧ t.i = s.i ∧ t.pc = s.pc ∧ t.stack = s.stack ∧ t.sp = s.sp ∧
  t.delay_timer = s.delay_timer ∧ t.sound_timer = s.sound_timer ∧
  t.keyboard = s.keyboard ∧ t.draw = s.draw

/-- The step on `opcode` is the blocked key wait: `Fx0A` with none of the 16 keys down. -/
def key_wait_blocked (s : Chip8_state) (opcode : Nat) : Prop :=
  opcode / 4096 = 0xF ∧ opcode % 256 = 0x0A ∧ ∀ k, k < 16 → s.keyboard k = 0

/-- The delay timer after the effect of the instruction itself: `Vx` for `Fx15`, the
value before the step for every other opcode. -/
def delay_after_effect (s : Chip8_state) (opcode : Nat) : Nat :=
  if opcode / 4096 = 0xF ∧ opcode % 256 = 0x15 then s.v (opcode / 256 % 16) else s.delay_timer

/-- The sound timer after the effect of the instruction itself: `Vx` for `Fx18`, the
value before the step for every other opcode. -/
def sound_after_effect (s : Chip8_state) (opcode : Nat) : Nat :=
  if opcode / 4096 = 0xF ∧ opcode % 256 = 0x18 then s.v (opcode / 256 % 16) else s.sound_timer

/-- The opcode words that match no case of the family their high nibble selects. -/
def unrecognized (opcode : Nat) : Prop :=
  (opcode / 4096 = 0x0 ∧ opcode ≠ 0x00E0 ∧ opcode ≠ 0x00EE) ∨
  (opcode / 4096 = 0x8 ∧ opcode % 16 ∉ [0x0, 0x1, 0x2, 0x3, 0x4, 0x5, 0x6, 0x7, 0xE]) ∨
  (opcode / 4096 = 0xE ∧ opcode % 256 ∉ [0x9E, 0xA1]) ∨
  (opcode / 4096 = 0xF ∧
    opcode % 256 ∉ [0x07, 0x0A, 0x15, 0x18, 0x1E, 0x29, 0x33, 0x55, 0x65])

/-- Every cell of the 64 x 32 framebuffer holds 0 or 1. -/
def framebuffer_bits (s : Chip8_state) : Prop :=
  ∀ k, k < graphics_size → s.graphics k = 0 ∨ s.graphics k = 1

/-- The 8-bit fields hold 8-bit values: memory cells, registers and the two timers
are below 256. The natural-number model does not carry the C++ types by itself. -/
def bytes_in_range (s : Chip8_state) : Prop :=
  (∀ k, s.memory k < 256) ∧ (∀ j, s.v j < 256) ∧ s.delay_timer < 256 ∧ s.sound_timer < 256

/-! ## Concrete states -/

/-- The start state with `bytes` placed at the program start, as `load_rom` copies a
ROM, and the glyph table loaded. -/
def with_program (bytes : List Nat) : Chip8_state :=
  let s := load_font initial_state
  { s with memory := copy_block s.memory program_start bytes }

/-- V1 = 200 and V2 = 100 in front of the instruction 8124. -/
def add_carry_state : Chip8_state :=
  { with_program [0x81, 0x24] with v := store (store initial_state.v 1 200) 2 100 }

/-- The glyph of the symbol 0 is about to be drawn at the origin by D015, and the top
left cell of the framebuffer is lit. -/
def draw_state : Chip8_state :=
  { with_program [0xD0, 0x15] with graphics := store initial_state.graphics 0 1 }

/-- The instruction F30A waits for a key while none is down; the timers are running. -/
def key_wait_state : Chip8_state :=
  { with_program [0xF3, 0x0A] with delay_timer := 9, sound_timer := 4 }

/-- The instruction F30A waits for a key while the keys 2 and 7 are down. -/
def key_down_state : Chip8_state :=
  { with_program [0xF3, 0x0A] with
    keyboard := store (store initial_state.keyboard 2 1) 7 1
    delay_timer := 9 }

/-- A call to 0x300 at the program start, with a return placed at 0x300. -/
def call_state : Chip8_state :=
  let s := with_program [0x23, 0x00]
  { s with memory := copy_block s.memory 0x300 [0x00, 0xEE], sp := 3 }

/-- The instruction 00E0 in front of a framebuffer with lit cells. -/
def clear_state : Chip8_state :=
  { with_program [0x00, 0xE0] with graphics := fun _ => 1 }

/-- V0 = 5 in front of the instruction 3005 (skip if V0 equals 5). -/
def skip_state : Chip8_state :=
  { with_program [0x30, 0x05] with v := store initial_state.v 0 5 }

/-- V0 = 0xFF and VF = 1 in front of the instruction 7001 (add 1 to V0). -/
def add_immediate_state : Chip8_state :=
  { with_program [0x70, 0x01] with v := store (store initial_state.v 0 0xFF) 0xF 1 }

/-- The word 8129 matches no case of family 8; registers, timers and framebuffer hold
values that a write would disturb. -/
def unrecognized_state : Chip8_state :=
  { with_program [0x81, 0x29] with
    v := store (store initial_state.v 1 7) 2 9
    graphics := fun _ => 1
    delay_timer := 3 }

/-- V2 = 0x40 in front of the instruction F215 (set the delay timer from V2), while
the delay timer is at 0 and the sound timer at 1. -/
def timer_state : Chip8_state :=
  { with_program [0xF2, 0x15] with v := store initial_state.v 2 0x40, sound_timer := 1 }

/-- A ROM of 3585 zero bytes, one more than fits behind the program start. -/
def oversized_rom : List Nat := List.replicate 3585 0

/-- V0 = 0x11, V1 = 0x22, V2 = 0x33 and I = 0x400 in front of the instruction F255. -/
def store_registers_state : Chip8_state :=
  { with_program [0xF2, 0x55] with
    v := store (store (store initial_state.v 0 0x11) 1 0x22) 2 0x33
    i := 0x400 }

/-- V4 = 237 and I = 0x400 in front of the instruction F433. -/
def decimal_state : Chip8_state :=
  { with_program [0xF4, 0x33] with v := store initial_state.v 4 237, i := 0x400 }

/-- A return 00EE at the program start while the stack pointer is 0. -/
def return_at_bottom_state : Chip8_state :=
  with_program [0x00, 0xEE]

/-- A call 2300 at the program start while the stack pointer is 15. -/
def call_at_top_state : Chip8_state :=
  { with_program [0x23, 0x00] with sp := 15 }

/-- A jump 1FFF to the last byte of memory, at the program start. -/
def jump_to_end_state : Chip8_state :=
  with_program [0x1F, 0xFF]

/-- V1 = 5 and V2 = 5 in front of the instruction 8125. -/
def subtract_equal_state : Chip8_state :=
  { with_program [0x81, 0x25] with v := store (store initial_state.v 1 5) 2 5 }

/-- V1 = 10 and VF = 7 in front of the instruction 81F4. -/
def add_flag_state : Chip8_state :=
  { with_program [0x81, 0xF4] with v := store (store initial_state.v 1 10) 0xF 7 }

/-- V0 = 62 and V1 = 0 in front of the instruction D011 with I = 0: the sprite is the
first glyph byte 0xF0, whose four set bits are the columns 0 to 3 of the sprite. -/
def draw_at_edge_state : Chip8_state :=
  { with_program [0xD0, 0x11] with v := store initial_state.v 0 62 }

/-- The instruction D015 twice in a row, over a framebuffer whose top left cell is
lit, with I = 0 on the glyph of the symbol 0. -/
def draw_twice_state : Chip8_state :=
  { with_program [0xD0, 0x15, 0xD0, 0x15] with graphics := store initial_state.graphics 0 1 }

/-! # Lemmas -/

/-! ## Constants -/

@[simp]
theorem memory_size_eq : memory_size = 4096 := rfl
@[simp]
theorem graphics_width_eq : graphics_width = 64 := rfl
@[simp]
theorem graphics_height_eq : graphics_height = 32 := rfl
@[simp]
theorem graphics_size_eq : graphics_size = 2048 := rfl
@[simp]
theorem stack_size_eq : stack_size = 16 := rfl
@[simp]
theorem keyboard_size_eq : keyboard_size = 16 := rfl
@[simp]
theorem program_start_eq : program_start = 512 := rfl
@[simp]
theorem font_height_eq : font_height = 5 := rfl

/-! ## Decoding and stores -/

theorem op_first_eq (op : Nat) : op_first op = op / 4096 % 16 := by
  unfold op_first
  rw [Nat.shiftRight_eq_div_pow]
  exact Nat.and_pow_two_sub_one_eq_mod _ 4

theorem op_nnn_eq (op : Nat) : op_nnn op = op % 4096 :=
  Nat.and_pow_two_sub_one_eq_mod _ 12

theorem op_nn_eq (op : Nat) : op_nn op = op % 256 :=
  Nat.and_pow_two_sub_one_eq_mod _ 8

theorem op_n_eq (op : Nat) : op_n op = op % 16 :=
  Nat.and_pow_two_sub_one_eq_mod _ 4

theorem op_x_eq (op : Nat) : op_x op = op / 256 % 16 := by
  unfold op_x
  rw [Nat.shiftRight_eq_div_pow]
  exact Nat.and_pow_two_sub_one_eq_mod _ 4

theorem op_y_eq (op : Nat) : op_y op = op / 16 % 16 := by
  unfold op_y
  rw [Nat.shiftRight_eq_div_pow]
  exact Nat.and_pow_two_sub_one_eq_mod _ 4

@[simp]
theorem store_same (a : Nat → Nat) (k val : Nat) : store a k val k = val := by
  simp [store]

theorem store_other (a : Nat → Nat) (k val j : Nat) (h : j ≠ k) : store a k val j = a j := by
  simp [store, h]

/-! ## The frame of `advance` and `tick_timers` -/

@[simp]
theorem tick_timers_memory (s : Chip8_state) : (tick_timers s).memory = s.memory := by
  unfold tick_timers; dsimp only; split_ifs <;> rfl
@[simp]
theorem tick_timers_v (s : Chip8_state) : (tick_timers s).v = s.v := by
  unfold tick_timers; dsimp only; split_ifs <;> rfl
@[simp]
theorem tick_timers_i (s : Chip8_state) : (tick_timers s).i = s.i := by
  unfold tick_timers; dsimp only; split_ifs <;> rfl
@[simp]
theorem tick_timers_pc (s : Chip8_state) : (tick_timers s).pc = s.pc := by
  unfold tick_timers; dsimp only; split_ifs <;> rfl
@[simp]
theorem tick_timers_stack (s : Chip8_state) : (tick_timers s).stack = s.stack := by
  unfold tick_timers; dsimp only; split_ifs <;> rfl
@[simp]
theorem tick_timers_sp (s : Chip8_state) : (tick_timers s).sp = s.sp := by
  unfold tick_timers; dsimp only; split_ifs <;> rfl
@[simp]
theorem tick_timers_graphics (s : Chip8_state) :
    (tick_timers s).graphics = s.graphics := by
  unfold tick_timers; dsimp only; split_ifs <;> rfl
@[simp]
theorem tick_timers_keyboard (s : Chip8_state) :
    (tick_timers s).keyboard = s.keyboard := by
  unfold tick_timers; dsimp only; split_ifs <;> rfl
@[simp]
theorem tick_timers_draw (s : Chip8_state) : (tick_timers s).draw = s.draw := by
  unfold tick_timers; dsimp only; split_ifs <;> rfl

/-- In natural numbers `t - 1` is the saturating decrement: the timers stop at zero. -/
theorem tick_timers_delay (s : Chip8_state) :
    (tick_timers s).delay_timer = s.delay_timer - 1 := by
  unfold tick_timers; dsimp only; split_ifs <;> simp_all

theorem tick_timers_sound (s : Chip8_state) :
    (tick_timers s).sound_timer = s.sound_timer - 1 := by
  unfold tick_timers; dsimp only; split_ifs <;> simp_all

/-- A step on a state whose fetch is defined is the dispatch followed by the timers. -/
theorem process_instruction_of_fetch (rnd : Nat) (s : Chip8_state) (op : Nat)
    (h : fetch s = some op) :
    process_instruction rnd s =
      (execute rnd op { s with draw := 0 }).map
        (fun r => if r.2 = true then tick_timers r.1 else r.1) := by
  simp [process_instruction, h]

/-- A defined fetch reads inside memory, so the program counter is at most 4094. -/
theorem fetch_pc_lt (s : Chip8_state) (op : Nat) (h : fetch s = some op) :
    s.pc + 1 < 4096 := by
  simp only [fetch, memory_size_eq] at h
  split at h
  · omega
  · simp at h

/-- A fetched opcode is a 16-bit word. -/
theorem fetch_lt (s : Chip8_state) (op : Nat) (h : fetch s = some op) : op < 65536 := by
  simp only [fetch] at h
  split at h
  · simp only [Option.some.injEq] at h
    rw [← h]
    exact Nat.mod_lt _ (by decide)
  · simp at h

/-! ## The sprite blit -/

theorem same_machine_refl (s : Chip8_state) : same_machine s s :=
  ⟨rfl, rfl, rfl, rfl, rfl, rfl, rfl, rfl, rfl⟩

theorem same_machine_trans {s t u : Chip8_state} (h1 : same_machine s t)
    (h2 : same_machine t u) : same_machine s u := by
  obtain ⟨a1, a2, a3, a4, a5, a6, a7, a8, a9⟩ := h1
  obtain ⟨b1, b2, b3, b4, b5, b6, b7, b8, b9⟩ := h2
  exact ⟨b1.trans a1, b2.trans a2, b3.trans a3, b4.trans a4, b5.trans a5, b6.trans a6,
    b7.trans a7, b8.trans a8, b9.trans a9⟩

/-- The inner loop of the blit, run for the first `k` columns of sprite row `r` whose
byte is `p`: it is defined when the `k` cells are inside the framebuffer, toggles the
cells of the set sprite bits and no other, and raises VF exactly when one of those
cells held 1. -/
theorem draw_pixel_loop (xx yy r p : Nat) (t : Chip8_state) (k : Nat)
    (hk : xx + k + (yy + r) * 64 ≤ 2048) :
    ∃ t', for_loop (draw_pixel xx yy r p) k t = some t' ∧ same_machine t t' ∧
      (∀ j, j ≠ 15 → t'.v j = t.v j) ∧
      ((∃ c, c < k ∧ p &&& (128 >>> c) ≠ 0 ∧ t.graphics (xx + c + (yy + r) * 64) = 1) →
        t'.v 15 = 1) ∧
      ((¬ ∃ c, c < k ∧ p &&& (128 >>> c) ≠ 0 ∧ t.graphics (xx + c + (yy + r) * 64) = 1) →
        t'.v 15 = t.v 15) ∧
      (∀ idx, (∃ c, c < k ∧ p &&& (128 >>> c) ≠ 0 ∧ idx = xx + c + (yy + r) * 64) →
        t'.graphics idx = (t.graphics idx ^^^ 1) % 256) ∧
      (∀ idx, (¬ ∃ c, c < k ∧ p &&& (128 >>> c) ≠ 0 ∧ idx = xx + c + (yy + r) * 64) →
        t'.graphics idx = t.graphics idx) := by
  induction k with
  | zero =>
    refine ⟨t, rfl, same_machine_refl t, fun _ _ => rfl, ?_, fun _ => rfl, ?_, fun _ _ => rfl⟩
    · rintro ⟨c, hc, _⟩; omega
    · rintro idx ⟨c, hc, _⟩; omega
  | succ k ih =>
    obtain ⟨u, hu, hsame, hv, hhit, hmiss, hflip, hkeep⟩ := ih (by omega)
    have hcell : u.graphics (xx + k + (yy + r) * 64) = t.graphics (xx + k + (yy + r) * 64) := by
      apply hkeep
      rintro ⟨c, hc, _, he⟩
      omega
    have hrange : xx + k + (yy + r) * 64 < 2048 := by omega
    by_cases hb : p &&& (128 >>> k) ≠ 0
    · by_cases hg : t.graphics (xx + k + (yy + r) * 64) = 1
      · refine ⟨{ u with
            v := store u.v 0xF 1
            graphics := store u.graphics (xx + k + (yy + r) * 64)
              ((u.graphics (xx + k + (yy + r) * 64) ^^^ 1) % 256) }, ?_, ?_, ?_, ?_, ?_, ?_, ?_⟩
        · simp [for_loop, hu, draw_pixel, hb, hrange, hcell, hg]
        · exact hsame
        · intro j hj
          simp [store, hj, hv j hj]
        · intro _
          simp
        · intro hno
          exact absurd ⟨k, Nat.lt_succ_self k, hb, hg⟩ hno
        · rintro idx ⟨c, hc, hbc, he⟩
          by_cases hck : c = k
          · subst hck
            simp [he, hcell]
          · have hne : idx ≠ xx + k + (yy + r) * 64 := by omega
            simp only [store, hne, if_false]
            exact hflip idx ⟨c, by omega, hbc, he⟩
        · intro idx hno
          have hne : idx ≠ xx + k + (yy + r) * 64 := by
            intro he
            exact hno ⟨k, Nat.lt_succ_self k, hb, he⟩
          simp only [store, hne, if_false]
          apply hkeep
          rintro ⟨c, hc, hbc, he⟩
          exact hno ⟨c, by omega, hbc, he⟩
      · refine ⟨{ u with
            graphics := store u.graphics (xx + k + (yy + r) * 64)
              ((u.graphics (xx + k + (yy + r) * 64) ^^^ 1) % 256) }, ?_, ?_, ?_, ?_, ?_, ?_, ?_⟩
        · simp [for_loop, hu, draw_pixel, hb, hrange, hcell, hg]
        · exact hsame
        · exact hv
        · rintro ⟨c, hc, hbc, hgc⟩
          by_cases hck : c = k
          · subst hck
            exact absurd hgc hg
          · exact hhit ⟨c, by omega, hbc, hgc⟩
        · intro hno
          apply hmiss
          rintro ⟨c, hc, hbc, hgc⟩
          exact hno ⟨c, by omega, hbc, hgc⟩
        · rintro idx ⟨c, hc, hbc, he⟩
          by_cases hck : c = k
          · subst hck
            simp [he, hcell]
          · have hne : idx ≠ xx + k + (yy + r) * 64 := by omega
            simp only [store, hne, if_false]
            exact hflip idx ⟨c, by omega, hbc, he⟩
        · intro idx hno
          have hne : idx ≠ xx + k + (yy + r) * 64 := by
            intro he
            exact hno ⟨k, Nat.lt_succ_self k, hb, he⟩
          simp only [store, hne, if_false]
          apply hkeep
          rintro ⟨c, hc, hbc, he⟩
          exact hno ⟨c, by omega, hbc, he⟩
    · refine ⟨u, ?_, hsame, hv, ?_, ?_, ?_, ?_⟩
      · simp only [for_loop, hu, Option.bind, draw_pixel, hb, if_false]
      · rintro ⟨c, hc, hbc, hgc⟩
        by_cases hck : c = k
        · subst hck
          exact absurd hbc hb
        · exact hhit ⟨c, by omega, hbc, hgc⟩
      · intro hno
        apply hmiss
        rintro ⟨c, hc, hbc, hgc⟩
        exact hno ⟨c, by omega, hbc, hgc⟩
      · rintro idx ⟨c, hc, hbc, he⟩
        by_cases hck : c = k
        · subst hck
          exact absurd hbc hb
        · exact hflip idx ⟨c, by omega, hbc, he⟩
      · intro idx hno
        apply hkeep
        rintro ⟨c, hc, hbc, he⟩
        exact hno ⟨c, by omega, hbc, he⟩

/-- The outer loop of the blit, run for the first `m` sprite rows from a state `t`,
on the flat framebuffer array: when the eight cells from `xx + (yy + r) * 64` on lie
inside the array for each row and the sprite lies inside memory, the loop is defined,
toggles the cells of the set sprite bits and no other, and raises VF exactly when one
of those cells held 1 in `t`. -/
theorem draw_row_loop_flat (xx yy : Nat) (t : Chip8_state) (m : Nat)
    (hrange : ∀ r, r < m → xx + 8 + (yy + r) * 64 ≤ 2048)
    (hi : ∀ r, r < m → t.i + r < 4096) :
    ∃ t', for_loop (draw_row xx yy) m t = some t' ∧ same_machine t t' ∧
      (∀ j, j ≠ 15 → t'.v j = t.v j) ∧
      ((∃ r c, r < m ∧ c < 8 ∧ t.memory (t.i + r) &&& (128 >>> c) ≠ 0 ∧
          t.graphics (xx + c + (yy + r) * 64) = 1) → t'.v 15 = 1) ∧
      ((¬ ∃ r c, r < m ∧ c < 8 ∧ t.memory (t.i + r) &&& (128 >>> c) ≠ 0 ∧
          t.graphics (xx + c + (yy + r) * 64) = 1) → t'.v 15 = t.v 15) ∧
      (∀ idx, (∃ r c, r < m ∧ c < 8 ∧ t.memory (t.i + r) &&& (128 >>> c) ≠ 0 ∧
          idx = xx + c + (yy + r) * 64) → t'.graphics idx = (t.graphics idx ^^^ 1) % 256) ∧
      (∀ idx, (¬ ∃ r c, r < m ∧ c < 8 ∧ t.memory (t.i + r) &&& (128 >>> c) ≠ 0 ∧
          idx = xx + c + (yy + r) * 64) → t'.graphics idx = t.graphics idx) := by
  induction m with
  | zero =>
    refine ⟨t, rfl, same_machine_refl t, fun _ _ => rfl, ?_, fun _ => rfl, ?_, fun _ _ => rfl⟩
    · rintro ⟨r, c, hr, _⟩; omega
    · rintro idx ⟨r, c, hr, _⟩; omega
  | succ m ih =>
    obtain ⟨u, hu, hsame, hv, hhit, hmiss, hflip, hkeep⟩ :=
      ih (fun r hr => hrange r (by omega)) (fun r hr => hi r (by omega))
    have hmem : u.memory = t.memory := hsame.1
    have hui : u.i = t.i := hsame.2.1
    obtain ⟨w, hw, hsame2, hv2, hhit2, hmiss2, hflip2, hkeep2⟩ :=
      draw_pixel_loop xx yy m (u.memory (u.i + m)) u 8 (hrange m (Nat.lt_succ_self m))
    have hrow : ∀ c, c < 8 →
        u.graphics (xx + c + (yy + m) * 64) = t.graphics (xx + c + (yy + m) * 64) := by
      intro c hc
      apply hkeep
      rintro ⟨r, c2, hr, hc2, _, he⟩
      omega
    rw [hmem, hui] at hw hhit2 hmiss2 hflip2 hkeep2
    refine ⟨w, ?_, same_machine_trans hsame hsame2, ?_, ?_, ?_, ?_, ?_⟩
    · have hlt : u.i + m < memory_size := by
        rw [memory_size_eq, hui]
        exact hi m (Nat.lt_succ_self m)
      show (for_loop (draw_row xx yy) m t).bind (draw_row xx yy m) = some w
      rw [hu]
      show draw_row xx yy m u = some w
      unfold draw_row
      rw [if_pos hlt, hmem, hui]
      exact hw
    · intro j hj
      rw [hv2 j hj, hv j hj]
    · rintro ⟨r, c, hr, hc, hb, hg⟩
      by_cases hin : ∃ c, c < 8 ∧ t.memory (t.i + m) &&& (128 >>> c) ≠ 0 ∧
          u.graphics (xx + c + (yy + m) * 64) = 1
      · exact hhit2 hin
      · rw [hmiss2 hin]
        apply hhit
        by_cases hrm : r = m
        · subst hrm
          exact absurd ⟨c, hc, hb, (hrow c hc).trans hg⟩ hin
        · exact ⟨r, c, by omega, hc, hb, hg⟩
    · intro hno
      have hin : ¬ ∃ c, c < 8 ∧ t.memory (t.i + m) &&& (128 >>> c) ≠ 0 ∧
          u.graphics (xx + c + (yy + m) * 64) = 1 := by
        rintro ⟨c, hc, hb, hg⟩
        exact hno ⟨m, c, Nat.lt_succ_self m, hc, hb, (hrow c hc).symm.trans hg⟩
      rw [hmiss2 hin]
      apply hmiss
      rintro ⟨r, c, hr, hc, hb, hg⟩
      exact hno ⟨r, c, by omega, hc, hb, hg⟩
    · rintro idx ⟨r, c, hr, hc, hb, he⟩
      by_cases hrm : r = m
      · subst hrm
        rw [hflip2 idx ⟨c, hc, hb, he⟩, he, hrow c hc]
      · have hout : ¬ ∃ c, c < 8 ∧ t.memory (t.i + m) &&& (128 >>> c) ≠ 0 ∧
            idx = xx + c + (yy + m) * 64 := by
          rintro ⟨c2, hc2, _, he2⟩
          omega
        rw [hkeep2 idx hout]
        exact hflip idx ⟨r, c, by omega, hc, hb, he⟩
    · intro idx hno
      have hout : ¬ ∃ c, c < 8 ∧ t.memory (t.i + m) &&& (128 >>> c) ≠ 0 ∧
          idx = xx + c + (yy + m) * 64 := by
        rintro ⟨c, hc, hb, he⟩
        exact hno ⟨m, c, Nat.lt_succ_self m, hc, hb, he⟩
      rw [hkeep2 idx hout]
      apply hkeep
      rintro ⟨r, c, hr, hc, hb, he⟩
      exact hno ⟨r, c, by omega, hc, hb, he⟩

/-- The outer loop of the blit, run for the first `m` sprite rows from a state `t`:
when the sprite lies inside the framebuffer and inside memory the loop is defined,
toggles the cells of the set sprite bits and no other, and raises VF exactly when one
of those cells held 1 in `t`. -/
theorem draw_row_loop (xx yy : Nat) (t : Chip8_state) (m : Nat)
    (hx : xx + 8 ≤ 64) (hy : yy + m ≤ 32) (hi : ∀ r, r < m → t.i + r < 4096) :
    ∃ t', for_loop (draw_row xx yy) m t = some t' ∧ same_machine t t' ∧
      (∀ j, j ≠ 15 → t'.v j = t.v j) ∧
      ((∃ r c, r < m ∧ c < 8 ∧ t.memory (t.i + r) &&& (128 >>> c) ≠ 0 ∧
          t.graphics (xx + c + (yy + r) * 64) = 1) → t'.v 15 = 1) ∧
      ((¬ ∃ r c, r < m ∧ c < 8 ∧ t.memory (t.i + r) &&& (128 >>> c) ≠ 0 ∧
          t.graphics (xx + c + (yy + r) * 64) = 1) → t'.v 15 = t.v 15) ∧
      (∀ idx, (∃ r c, r < m ∧ c < 8 ∧ t.memory (t.i + r) &&& (128 >>> c) ≠ 0 ∧
          idx = xx + c + (yy + r) * 64) → t'.graphics idx = (t.graphics idx ^^^ 1) % 256) ∧
      (∀ idx, (¬ ∃ r c, r < m ∧ c < 8 ∧ t.memory (t.i + r) &&& (128 >>> c) ≠ 0 ∧
          idx = xx + c + (yy + r) * 64) → t'.graphics idx = t.graphics idx) :=
  draw_row_loop_flat xx yy t m (fun r hr => by omega) hi

/-- The sprite bit tested by the blit for column `c` is bit `7 - c` of the row byte. -/
theorem sprite_bit_iff (p c : Nat) (hc : c < 8) :
    p &&& (128 >>> c) ≠ 0 ↔ p.testBit (7 - c) = true := by
  have hpow : 128 >>> c = 2 ^ (7 - c) := by
    interval_cases c <;> rfl
  rw [hpow]
  constructor
  · intro h
    by_contra hbit
    apply h
    apply Nat.eq_of_testBit_eq
    intro j
    rw [Nat.testBit_and, Nat.testBit_two_pow, Nat.zero_testBit]
    by_cases hj : 7 - c = j
    · subst hj
      simp [hbit]
    · simp [hj]
  · intro h hz
    have : (p &&& 2 ^ (7 - c)).testBit (7 - c) = true := by
      rw [Nat.testBit_and, Nat.testBit_two_pow_self, h]
      rfl
    rw [hz, Nat.zero_testBit] at this
    exact absurd this (by decide)

/-- The register operands of the sprite draw, as the source extracts them. -/
theorem draw_operand_x (op : Nat) : (op &&& 0x0F00) >>> 8 = op / 256 % 16 := by
  rw [← op_x_eq]
  unfold op_x
  apply Nat.eq_of_testBit_eq
  intro j
  have h : Nat.testBit 0x0F00 (8 + j) = Nat.testBit 0x0F j := by
    rw [← Nat.testBit_shiftRight]
    rfl
  simp only [Nat.testBit_shiftRight, Nat.testBit_and, h]

theorem draw_operand_y (op : Nat) : (op &&& 0x00F0) >>> 4 = op / 16 % 16 := by
  rw [← op_y_eq]
  unfold op_y
  apply Nat.eq_of_testBit_eq
  intro j
  have h : Nat.testBit 0x00F0 (4 + j) = Nat.testBit 0x0F j := by
    rw [← Nat.testBit_shiftRight]
    rfl
  simp only [Nat.testBit_shiftRight, Nat.testBit_and, h]

/-! ## The key scan of `Fx0A` -/

theorem store_store (a : Nat → Nat) (k v1 v2 : Nat) :
    store (store a k v1) k v2 = store a k v2 := by
  funext j
  by_cases h : j = k <;> simp [store, h]

/-- With no key down among the first `k`, the scan leaves state and flag alone. -/
theorem key_scan_none (x : Nat) (st : Chip8_state) (k : Nat)
    (hkeys : ∀ j, j < k → st.keyboard j = 0) :
    for_loop (key_scan x) k (st, false) = some (st, false) := by
  induction k with
  | zero => rfl
  | succ k ih =>
    have h0 : st.keyboard k = 0 := hkeys k (Nat.lt_succ_self k)
    simp [for_loop, ih (fun j hj => hkeys j (by omega)), key_scan, h0]

/-- The scan only ever writes register `x`. -/
theorem key_scan_shape (x : Nat) (st : Chip8_state) (k : Nat) :
    ∃ val b, for_loop (key_scan x) k (st, false) = some ({ st with v := val }, b) ∧
      ∀ j, j ≠ x → val j = st.v j := by
  induction k with
  | zero => exact ⟨st.v, false, rfl, fun _ _ => rfl⟩
  | succ k ih =>
    obtain ⟨val, b, hrun, hval⟩ := ih
    by_cases hk : st.keyboard k ≠ 0
    · refine ⟨store val x k, true, ?_, ?_⟩
      · simp [for_loop, hrun, key_scan, hk]
      · intro j hj
        simp [store, hj, hval j hj]
    · refine ⟨val, b, ?_, hval⟩
      simp only [for_loop, hrun, Option.bind, key_scan, hk, if_false]

/-- With `g` the greatest of the first `k` keys that is down, the scan ends with `g`
in register `x` and the flag raised. -/
theorem key_scan_last (x : Nat) (st : Chip8_state) (k g : Nat) (hg : g < k)
    (hdown : st.keyboard g ≠ 0) (hmax : ∀ j, j < k → st.keyboard j ≠ 0 → j ≤ g) :
    for_loop (key_scan x) k (st, false) = some ({ st with v := store st.v x g }, true) := by
  induction k with
  | zero => omega
  | succ k ih =>
    by_cases hgk : g = k
    · subst hgk
      obtain ⟨val, b, hrun, hval⟩ := key_scan_shape x st g
      have hst : store val x g = store st.v x g := by
        funext j
        by_cases hj : j = x
        · simp [store, hj]
        · simp [store, hj, hval j hj]
      simp [for_loop, hrun, key_scan, hdown, hst]
    · have hk0 : ¬ st.keyboard k ≠ 0 := by
        intro hk
        have := hmax k (Nat.lt_succ_self k) hk
        omega
      have hrun := ih (by omega) (fun j hj hd => hmax j (by omega) hd)
      simp only [for_loop, hrun, Option.bind, key_scan, hk0, if_false]

/-- Among finitely many keys of which one is down there is a greatest one down. -/
theorem exists_last_key (kb : Nat → Nat) (k : Nat) (h : ∃ j, j < k ∧ kb j ≠ 0) :
    ∃ g, g < k ∧ kb g ≠ 0 ∧ ∀ j, j < k → kb j ≠ 0 → j ≤ g := by
  induction k with
  | zero =>
    obtain ⟨j, hj, _⟩ := h
    omega
  | succ k ih =>
    by_cases hk : kb k ≠ 0
    · exact ⟨k, Nat.lt_succ_self k, hk, fun j hj _ => by omega⟩
    · obtain ⟨j, hj, hd⟩ := h
      have hjk : j ≠ k := fun e => hk (e ▸ hd)
      obtain ⟨g, hg, hgd, hmax⟩ := ih ⟨j, by omega, hd⟩
      refine ⟨g, by omega, hgd, fun i hi hid => ?_⟩
      have hik : i ≠ k := fun e => hk (e ▸ hid)
      exact hmax i (by omega) hid

theorem exec_F_wait (x : Nat) (st : Chip8_state) :
    exec_F 0x0A x st = (for_loop (key_scan x) keyboard_size (st, false)).map
      (fun r => if r.2 = false then (r.1, false) else (advance r.1, true)) := by
  simp [exec_F]

/-- The step on a key wait with no key down: only the draw flag is cleared. -/
theorem key_wait_idle (rnd : Nat) (s : Chip8_state) (x : Nat) (hx : x < 16)
    (hop : fetch s = some (0xF00A + 0x100 * x))
    (hkeys : ∀ k, k < 16 → s.keyboard k = 0) :
    process_instruction rnd s = some { s with draw := 0 } := by
  have h1 : op_first (0xF00A + 0x100 * x) = 15 := by rw [op_first_eq]; omega
  have h2 : op_nn (0xF00A + 0x100 * x) = 10 := by rw [op_nn_eq]; omega
  rw [process_instruction_of_fetch rnd s _ hop]
  simp only [execute, h1, h2, exec_F_wait, keyboard_size_eq]
  rw [key_scan_none _ { s with draw := 0 } 16 hkeys]
  simp


/-! ## The timers through the dispatch -/

/-- A property kept by every iteration is kept by the loop. -/
theorem for_loop_keeps {σ : Type} (body : Nat → σ → Option σ) (P : σ → Prop)
    (hbody : ∀ k st st', P st → body k st = some st' → P st') :
    ∀ k st st', P st → for_loop body k st = some st' → P st' := by
  intro k
  induction k with
  | zero =>
    intro st st' hP h
    simp only [for_loop, Option.some.injEq] at h
    exact h ▸ hP
  | succ k ih =>
    intro st st' hP h
    simp only [for_loop] at h
    cases hk : for_loop body k st with
    | none => simp [hk] at h
    | some u =>
      rw [hk] at h
      exact hbody k u st' (ih st u hP hk) h

theorem draw_pixel_timers (xx yy r p c d e : Nat) (st st' : Chip8_state)
    (hP : st.delay_timer = d ∧ st.sound_timer = e)
    (h : draw_pixel xx yy r p c st = some st') :
    st'.delay_timer = d ∧ st'.sound_timer = e := by
  unfold draw_pixel at h
  split_ifs at h <;> simp only [Option.some.injEq] at h <;> subst h <;> exact hP

theorem draw_row_timers (xx yy r d e : Nat) (st st' : Chip8_state)
    (hP : st.delay_timer = d ∧ st.sound_timer = e)
    (h : draw_row xx yy r st = some st') :
    st'.delay_timer = d ∧ st'.sound_timer = e := by
  unfold draw_row at h
  split_ifs at h
  exact for_loop_keeps _ (fun u => u.delay_timer = d ∧ u.sound_timer = e)
    (fun c u u' hu hc => draw_pixel_timers xx yy r _ c d e u u' hu hc) 8 st st' hP h

theorem store_reg_timers (k d e : Nat) (st st' : Chip8_state)
    (hP : st.delay_timer = d ∧ st.sound_timer = e) (h : store_reg k st = some st') :
    st'.delay_timer = d ∧ st'.sound_timer = e := by
  unfold store_reg at h
  split_ifs at h
  simp only [Option.some.injEq] at h
  subst h
  exact hP

theorem load_reg_timers (k d e : Nat) (st st' : Chip8_state)
    (hP : st.delay_timer = d ∧ st.sound_timer = e) (h : load_reg k st = some st') :
    st'.delay_timer = d ∧ st'.sound_timer = e := by
  unfold load_reg at h
  split_ifs at h
  simp only [Option.some.injEq] at h
  subst h
  exact hP

theorem write_memory_timers (k val d e : Nat) (st st' : Chip8_state)
    (hP : st.delay_timer = d ∧ st.sound_timer = e) (h : write_memory st k val = some st') :
    st'.delay_timer = d ∧ st'.sound_timer = e := by
  unfold write_memory at h
  split_ifs at h
  simp only [Option.some.injEq] at h
  subst h
  exact hP

/-- The key scan reports no key only when none of the 16 is down, and writes no
timer. -/
theorem key_scan_result (x : Nat) (st : Chip8_state) (r : Chip8_state × Bool)
    (h : for_loop (key_scan x) 16 (st, false) = some r) :
    r.1.delay_timer = st.delay_timer ∧ r.1.sound_timer = st.sound_timer ∧
      (r.2 = false → ∀ k, k < 16 → st.keyboard k = 0) := by
  obtain ⟨val, b, hrun, -⟩ := key_scan_shape x st 16
  rw [hrun, Option.some.injEq] at h
  subst h
  refine ⟨rfl, rfl, ?_⟩
  intro hb k hk
  by_contra hdown
  obtain ⟨g, hg, hgd, hmax⟩ := exists_last_key st.keyboard 16 ⟨k, hk, hdown⟩
  rw [key_scan_last x st 16 g hg hgd hmax] at hrun
  simp only [Option.some.injEq, Prod.mk.injEq] at hrun
  have hb2 : b = false := hb
  rw [← hrun.2] at hb2
  exact Bool.noConfusion hb2

theorem exec_F_07 (x : Nat) (st : Chip8_state) :
    exec_F 0x07 x st = some (advance { st with v := store st.v x st.delay_timer }, true) := by
  simp [exec_F]

theorem exec_F_15 (x : Nat) (st : Chip8_state) :
    exec_F 0x15 x st = some (advance { st with delay_timer := st.v x }, true) := by
  simp [exec_F]

theorem exec_F_18 (x : Nat) (st : Chip8_state) :
    exec_F 0x18 x st = some (advance { st with sound_timer := st.v x }, true) := by
  simp [exec_F]

theorem exec_F_1E (x : Nat) (st : Chip8_state) :
    exec_F 0x1E x st = some (advance { st with i := (st.i + st.v x) % 65536 }, true) := by
  simp [exec_F]

theorem exec_F_29 (x : Nat) (st : Chip8_state) :
    exec_F 0x29 x st =
      some (advance { st with i := (st.v x * font_height) % 65536 }, true) := by
  simp [exec_F]

theorem exec_F_33 (x : Nat) (st : Chip8_state) :
    exec_F 0x33 x st =
      ((write_memory st st.i ((st.v x / 100) % 256)).bind (fun s1 =>
        (write_memory s1 (s1.i + 1) (((s1.v x / 10) % 10) % 256)).bind (fun s2 =>
          write_memory s2 (s2.i + 2) (((s2.v x % 100) % 10) % 256)))).map
        (fun s3 => (advance s3, true)) := by
  simp [exec_F]

theorem exec_F_55 (x : Nat) (st : Chip8_state) :
    exec_F 0x55 x st = (for_loop store_reg x st).map
      (fun s1 => (advance { s1 with i := (s1.i + (x + 1)) % 65536 }, true)) := by
  simp [exec_F]

theorem exec_F_65 (x : Nat) (st : Chip8_state) :
    exec_F 0x65 x st = (for_loop load_reg x st).map
      (fun s1 => (advance { s1 with i := (s1.i + (x + 1)) % 65536 }, true)) := by
  simp [exec_F]

theorem exec_F_other (nn x : Nat) (st : Chip8_state)
    (h : nn ∉ [0x07, 0x0A, 0x15, 0x18, 0x1E, 0x29, 0x33, 0x55, 0x65]) :
    exec_F nn x st = some (advance st, true) := by
  simp only [List.mem_cons, List.mem_singleton, not_or, List.not_mem_nil, not_false_eq_true,
    and_true] at h
  obtain ⟨a1, a2, a3, a4, a5, a6, a7, a8, a9⟩ := h
  simp [exec_F, a1, a2, a3, a4, a5, a6, a7, a8, a9]

/-- Family F: either control reaches the timer code with the timers as the
instruction left them, or the step is the blocked key wait. -/
theorem exec_F_timers (op nn x : Nat) (st t : Chip8_state) (b : Bool)
    (hF : op / 4096 = 0xF) (hnn : nn = op % 256) (hx : x = op / 256 % 16)
    (h : exec_F nn x st = some (t, b)) :
    (b = true ∧ t.delay_timer = delay_after_effect st op ∧
      t.sound_timer = sound_after_effect st op) ∨
    (b = false ∧ key_wait_blocked st op) := by
  by_cases h07 : nn = 0x07
  · subst h07
    rw [exec_F_07, Option.some.injEq, Prod.mk.injEq] at h
    obtain ⟨rfl, rfl⟩ := h
    left
    simp [delay_after_effect, sound_after_effect, advance, ← hnn]
  by_cases h0A : nn = 0x0A
  · subst h0A
    rw [exec_F_wait, keyboard_size_eq] at h
    cases hscan : for_loop (key_scan x) 16 (st, false) with
    | none => simp [hscan] at h
    | some r =>
      rw [hscan] at h
      obtain ⟨hd, hs, hkeys⟩ := key_scan_result _ st r hscan
      by_cases hb : r.2 = false
      · right
        simp only [Option.map, hb, if_true, Option.some.injEq, Prod.mk.injEq] at h
        exact ⟨h.2.symm, hF, hnn.symm, hkeys hb⟩
      · left
        simp only [Option.map, hb, if_false, Option.some.injEq, Prod.mk.injEq] at h
        obtain ⟨rfl, rfl⟩ := h
        simp [delay_after_effect, sound_after_effect, advance, ← hnn, hd, hs]
  by_cases h15 : nn = 0x15
  · subst h15
    rw [exec_F_15, Option.some.injEq, Prod.mk.injEq] at h
    obtain ⟨rfl, rfl⟩ := h
    left
    simp [delay_after_effect, sound_after_effect, advance, ← hnn, hF, hx]
  by_cases h18 : nn = 0x18
  · subst h18
    rw [exec_F_18, Option.some.injEq, Prod.mk.injEq] at h
    obtain ⟨rfl, rfl⟩ := h
    left
    simp [delay_after_effect, sound_after_effect, advance, ← hnn, hF, hx]
  have e1 : ¬ op % 256 = 0x15 := fun e => h15 (hnn.trans e)
  have e2 : ¬ op % 256 = 0x18 := fun e => h18 (hnn.trans e)
  left
  by_cases h1E : nn = 0x1E
  · subst h1E
    rw [exec_F_1E, Option.some.injEq, Prod.mk.injEq] at h
    obtain ⟨rfl, rfl⟩ := h
    simp [delay_after_effect, sound_after_effect, advance, e1, e2]
  by_cases h29 : nn = 0x29
  · subst h29
    rw [exec_F_29, Option.some.injEq, Prod.mk.injEq] at h
    obtain ⟨rfl, rfl⟩ := h
    simp [delay_after_effect, sound_after_effect, advance, e1, e2]
  by_cases h33 : nn = 0x33
  · subst h33
    rw [exec_F_33] at h
    cases h1 : write_memory st st.i ((st.v x / 100) % 256) with
    | none => simp [h1] at h
    | some s1 =>
      have k1 := write_memory_timers _ _ _ _ st s1 ⟨rfl, rfl⟩ h1
      cases h2 : write_memory s1 (s1.i + 1) (((s1.v x / 10) % 10) % 256) with
      | none => simp [h1, h2] at h
      | some s2 =>
        have k2 := write_memory_timers _ _ _ _ s1 s2 k1 h2
        cases h3 : write_memory s2 (s2.i + 2) (((s2.v x % 100) % 10) % 256) with
        | none => simp [h1, h2, h3] at h
        | some s3 =>
          have k3 := write_memory_timers _ _ _ _ s2 s3 k2 h3
          simp only [h1, h2, h3, Option.bind, Option.map, Option.some.injEq,
            Prod.mk.injEq] at h
          obtain ⟨rfl, rfl⟩ := h
          simp [delay_after_effect, sound_after_effect, advance, e1, e2, k3.1, k3.2]
  by_cases h55 : nn = 0x55
  · subst h55
    rw [exec_F_55] at h
    cases h1 : for_loop store_reg x st with
    | none => simp [h1] at h
    | some s1 =>
      have k1 := for_loop_keeps store_reg
        (fun u => u.delay_timer = st.delay_timer ∧ u.sound_timer = st.sound_timer)
        (fun k u u' hu hk => store_reg_timers k _ _ u u' hu hk) _ st s1 ⟨rfl, rfl⟩ h1
      simp only [h1, Option.map, Option.some.injEq, Prod.mk.injEq] at h
      obtain ⟨rfl, rfl⟩ := h
      simp [delay_after_effect, sound_after_effect, advance, e1, e2, k1.1, k1.2]
  by_cases h65 : nn = 0x65
  · subst h65
    rw [exec_F_65] at h
    cases h1 : for_loop load_reg x st with
    | none => simp [h1] at h
    | some s1 =>
      have k1 := for_loop_keeps load_reg
        (fun u => u.delay_timer = st.delay_timer ∧ u.sound_timer = st.sound_timer)
        (fun k u u' hu hk => load_reg_timers k _ _ u u' hu hk) _ st s1 ⟨rfl, rfl⟩ h1
      simp only [h1, Option.map, Option.some.injEq, Prod.mk.injEq] at h
      obtain ⟨rfl, rfl⟩ := h
      simp [delay_after_effect, sound_after_effect, advance, e1, e2, k1.1, k1.2]
  rw [exec_F_other nn x st (by simp [h07, h0A, h15, h18, h1E, h29, h33, h55, h65]),
    Option.some.injEq, Prod.mk.injEq] at h
  obtain ⟨rfl, rfl⟩ := h
  simp [delay_after_effect, sound_after_effect, advance, e1, e2]

theorem exec_0_timers (op : Nat) (st t : Chip8_state) (h : exec_0 op st = some t) :
    t.delay_timer = st.delay_timer ∧ t.sound_timer = st.sound_timer := by
  unfold exec_0 at h
  split_ifs at h <;> simp only [Option.some.injEq] at h <;> subst h <;> exact ⟨rfl, rfl⟩

theorem exec_2_timers (nnn : Nat) (st t : Chip8_state) (h : exec_2 nnn st = some t) :
    t.delay_timer = st.delay_timer ∧ t.sound_timer = st.sound_timer := by
  unfold exec_2 at h
  dsimp only at h
  split_ifs at h
  simp only [Option.some.injEq] at h
  subst h
  exact ⟨rfl, rfl⟩

theorem exec_8_timers (n x y : Nat) (st : Chip8_state) :
    (exec_8 n x y st).delay_timer = st.delay_timer ∧
      (exec_8 n x y st).sound_timer = st.sound_timer := by
  unfold exec_8
  split <;> exact ⟨rfl, rfl⟩

theorem exec_D_timers (op : Nat) (st t : Chip8_state) (h : exec_D op st = some t) :
    t.delay_timer = st.delay_timer ∧ t.sound_timer = st.sound_timer := by
  unfold exec_D at h
  dsimp only at h
  cases hrun : for_loop (draw_row (st.v ((op &&& 0x0F00) >>> 8)) (st.v ((op &&& 0x00F0) >>> 4)))
      (op &&& 0x000F) { st with v := store st.v 0xF 0 } with
  | none => simp [hrun] at h
  | some u =>
    have k := for_loop_keeps _
      (fun w => w.delay_timer = st.delay_timer ∧ w.sound_timer = st.sound_timer)
      (fun r w w' hw hr => draw_row_timers _ _ r _ _ w w' hw hr) _ _ u ⟨rfl, rfl⟩ hrun
    simp only [hrun, Option.map, Option.some.injEq] at h
    subst h
    exact k

theorem exec_E_timers (nn x : Nat) (st t : Chip8_state) (h : exec_E nn x st = some t) :
    t.delay_timer = st.delay_timer ∧ t.sound_timer = st.sound_timer := by
  unfold exec_E at h
  split_ifs at h <;> simp only [Option.some.injEq] at h <;> subst h <;> exact ⟨rfl, rfl⟩

theorem map_reaches_timers (o : Option Chip8_state) (t : Chip8_state) (b : Bool)
    (h : o.map (fun s1 => (s1, true)) = some (t, b)) : o = some t ∧ b = true := by
  cases o with
  | none => simp at h
  | some u =>
    simp only [Option.map, Option.some.injEq, Prod.mk.injEq] at h
    exact ⟨by rw [h.1], h.2.symm⟩

/-- The dispatch on any 16-bit word: either control reaches the timer code with the
timers as the instruction left them, or the step is the blocked key wait. -/
theorem execute_timers (rnd op : Nat) (st t : Chip8_state) (b : Bool) (hlt : op < 65536)
    (h : execute rnd op st = some (t, b)) :
    (b = true ∧ t.delay_timer = delay_after_effect st op ∧
      t.sound_timer = sound_after_effect st op) ∨
    (b = false ∧ key_wait_blocked st op) := by
  have hf := op_first_eq op
  obtain ⟨f, hfe⟩ : ∃ f, op_first op = f := ⟨_, rfl⟩
  have hf16 : f < 16 := by omega
  have hdiv : op / 4096 = f := by omega
  simp only [execute, hfe] at h
  by_cases h15 : f = 15
  · subst h15
    exact exec_F_timers op _ _ st t b hdiv (op_nn_eq op) (op_x_eq op) h
  · left
    have hd : delay_after_effect st op = st.delay_timer := by
      simp [delay_after_effect, hdiv, h15]
    have hs : sound_after_effect st op = st.sound_timer := by
      simp [sound_after_effect, hdiv, h15]
    rw [hd, hs]
    interval_cases f
    · obtain ⟨h1, h2⟩ := map_reaches_timers _ t b h
      exact ⟨h2, exec_0_timers _ _ _ h1⟩
    · simp only [Option.some.injEq, Prod.mk.injEq] at h
      obtain ⟨rfl, rfl⟩ := h
      exact ⟨rfl, rfl, rfl⟩
    · obtain ⟨h1, h2⟩ := map_reaches_timers _ t b h
      exact ⟨h2, exec_2_timers _ _ _ h1⟩
    · simp only [Option.some.injEq, Prod.mk.injEq] at h
      obtain ⟨rfl, rfl⟩ := h
      exact ⟨rfl, rfl, rfl⟩
    · simp only [Option.some.injEq, Prod.mk.injEq] at h
      obtain ⟨rfl, rfl⟩ := h
      exact ⟨rfl, rfl, rfl⟩
    · simp only [Option.some.injEq, Prod.mk.injEq] at h
      obtain ⟨rfl, rfl⟩ := h
      refine ⟨rfl, ?_, ?_⟩ <;> simp only [advance] <;> split_ifs <;> rfl
    · simp only [Option.some.injEq, Prod.mk.injEq] at h
      obtain ⟨rfl, rfl⟩ := h
      exact ⟨rfl, rfl, rfl⟩
    · simp only [Option.some.injEq, Prod.mk.injEq] at h
      obtain ⟨rfl, rfl⟩ := h
      exact ⟨rfl, rfl, rfl⟩
    · simp only [Option.some.injEq, Prod.mk.injEq] at h
      obtain ⟨rfl, rfl⟩ := h
      exact ⟨rfl, exec_8_timers _ _ _ _⟩
    · simp only [Option.some.injEq, Prod.mk.injEq] at h
      obtain ⟨rfl, rfl⟩ := h
      refine ⟨rfl, ?_, ?_⟩ <;> simp only [advance] <;> split_ifs <;> rfl
    · simp only [Option.some.injEq, Prod.mk.injEq] at h
      obtain ⟨rfl, rfl⟩ := h
      exact ⟨rfl, rfl, rfl⟩
    · simp only [Option.some.injEq, Prod.mk.injEq] at h
      obtain ⟨rfl, rfl⟩ := h
      exact ⟨rfl, rfl, rfl⟩
    · simp only [Option.some.injEq, Prod.mk.injEq] at h
      obtain ⟨rfl, rfl⟩ := h
      exact ⟨rfl, rfl, rfl⟩
    · obtain ⟨h1, h2⟩ := map_reaches_timers _ t b h
      exact ⟨h2, exec_D_timers _ _ _ h1⟩
    · obtain ⟨h1, h2⟩ := map_reaches_timers _ t b h
      exact ⟨h2, exec_E_timers _ _ _ _ h1⟩
    · exact absurd rfl h15


/-! ## The register block store -/

/-- The store loop of `Fx55` run for `m` registers that fit below the end of memory:
the `m` cells from `I` on receive V0 .. V(m-1), and nothing else changes. -/
theorem store_reg_loop (st : Chip8_state) (m : Nat) (hfit : st.i + m ≤ 4096) :
    ∃ mem, for_loop store_reg m st = some { st with memory := mem } ∧
      (∀ k, k < m → mem (st.i + k) = st.v k) ∧
      (∀ j, (j < st.i ∨ st.i + m ≤ j) → mem j = st.memory j) := by
  induction m with
  | zero => exact ⟨st.memory, rfl, fun k hk => by omega, fun _ _ => rfl⟩
  | succ m ih =>
    obtain ⟨mem, hrun, hin, hout⟩ := ih (by omega)
    have hlt : st.i + m < 4096 := by omega
    refine ⟨store mem (st.i + m) (st.v m), ?_, ?_, ?_⟩
    · simp [for_loop, hrun, store_reg, hlt]
    · intro k hk
      by_cases hkm : k = m
      · subst hkm
        simp
      · have hne : st.i + k ≠ st.i + m := by omega
        rw [store_other _ _ _ _ hne]
        exact hin k (by omega)
    · intro j hj
      have hne : j ≠ st.i + m := by omega
      rw [store_other _ _ _ _ hne]
      exact hout j (by omega)


/-! ## Stack pointer and framebuffer through the dispatch -/

theorem draw_pixel_sp (xx yy r p c a : Nat) (st st' : Chip8_state) (hP : st.sp = a)
    (h : draw_pixel xx yy r p c st = some st') : st'.sp = a := by
  unfold draw_pixel at h
  split_ifs at h <;> simp only [Option.some.injEq] at h <;> subst h <;> exact hP

theorem draw_row_sp (xx yy r a : Nat) (st st' : Chip8_state) (hP : st.sp = a)
    (h : draw_row xx yy r st = some st') : st'.sp = a := by
  unfold draw_row at h
  split_ifs at h
  exact for_loop_keeps _ (fun u => u.sp = a)
    (fun c u u' hu hc => draw_pixel_sp xx yy r _ c a u u' hu hc) 8 st st' hP h

theorem exec_D_sp (op : Nat) (st t : Chip8_state) (h : exec_D op st = some t) :
    t.sp = st.sp := by
  unfold exec_D at h
  dsimp only at h
  cases hrun : for_loop (draw_row (st.v ((op &&& 0x0F00) >>> 8)) (st.v ((op &&& 0x00F0) >>> 4)))
      (op &&& 0x000F) { st with v := store st.v 0xF 0 } with
  | none => simp [hrun] at h
  | some u =>
    have k := for_loop_keeps _ (fun w => w.sp = st.sp)
      (fun r w w' hw hr => draw_row_sp _ _ r _ w w' hw hr) _ _ u rfl hrun
    simp only [hrun, Option.map, Option.some.injEq] at h
    subst h
    exact k

theorem store_reg_frame (k a : Nat) (g : Nat → Nat) (st st' : Chip8_state)
    (hP : st.sp = a ∧ st.graphics = g) (h : store_reg k st = some st') :
    st'.sp = a ∧ st'.graphics = g := by
  unfold store_reg at h
  split_ifs at h
  simp only [Option.some.injEq] at h
  subst h
  exact hP

theorem load_reg_frame (k a : Nat) (g : Nat → Nat) (st st' : Chip8_state)
    (hP : st.sp = a ∧ st.graphics = g) (h : load_reg k st = some st') :
    st'.sp = a ∧ st'.graphics = g := by
  unfold load_reg at h
  split_ifs at h
  simp only [Option.some.injEq] at h
  subst h
  exact hP

theorem write_memory_frame (k val a : Nat) (g : Nat → Nat) (st st' : Chip8_state)
    (hP : st.sp = a ∧ st.graphics = g) (h : write_memory st k val = some st') :
    st'.sp = a ∧ st'.graphics = g := by
  unfold write_memory at h
  split_ifs at h
  simp only [Option.some.injEq] at h
  subst h
  exact hP

theorem exec_8_frame (n x y : Nat) (st : Chip8_state) :
    (exec_8 n x y st).sp = st.sp ∧ (exec_8 n x y st).graphics = st.graphics := by
  unfold exec_8
  split <;> exact ⟨rfl, rfl⟩

theorem exec_E_frame (nn x : Nat) (st t : Chip8_state) (h : exec_E nn x st = some t) :
    t.sp = st.sp ∧ t.graphics = st.graphics := by
  unfold exec_E at h
  split_ifs at h <;> simp only [Option.some.injEq] at h <;> subst h <;> exact ⟨rfl, rfl⟩

/-- Family F writes neither the stack pointer nor the framebuffer. -/
theorem exec_F_frame (nn x : Nat) (st t : Chip8_state) (b : Bool)
    (h : exec_F nn x st = some (t, b)) : t.sp = st.sp ∧ t.graphics = st.graphics := by
  by_cases h07 : nn = 0x07
  · subst h07
    rw [exec_F_07, Option.some.injEq, Prod.mk.injEq] at h
    obtain ⟨rfl, rfl⟩ := h
    exact ⟨rfl, rfl⟩
  by_cases h0A : nn = 0x0A
  · subst h0A
    rw [exec_F_wait, keyboard_size_eq] at h
    obtain ⟨val, c, hrun, -⟩ := key_scan_shape x st 16
    rw [hrun] at h
    simp only [Option.map, Option.some.injEq] at h
    split_ifs at h <;> simp only [Prod.mk.injEq] at h <;> obtain ⟨rfl, rfl⟩ := h <;>
      exact ⟨rfl, rfl⟩
  by_cases h15 : nn = 0x15
  · subst h15
    rw [exec_F_15, Option.some.injEq, Prod.mk.injEq] at h
    obtain ⟨rfl, rfl⟩ := h
    exact ⟨rfl, rfl⟩
  by_cases h18 : nn = 0x18
  · subst h18
    rw [exec_F_18, Option.some.injEq, Prod.mk.injEq] at h
    obtain ⟨rfl, rfl⟩ := h
    exact ⟨rfl, rfl⟩
  by_cases h1E : nn = 0x1E
  · subst h1E
    rw [exec_F_1E, Option.some.injEq, Prod.mk.injEq] at h
    obtain ⟨rfl, rfl⟩ := h
    exact ⟨rfl, rfl⟩
  by_cases h29 : nn = 0x29
  · subst h29
    rw [exec_F_29, Option.some.injEq, Prod.mk.injEq] at h
    obtain ⟨rfl, rfl⟩ := h
    exact ⟨rfl, rfl⟩
  by_cases h33 : nn = 0x33
  · subst h33
    rw [exec_F_33] at h
    cases h1 : write_memory st st.i ((st.v x / 100) % 256) with
    | none => simp [h1] at h
    | some s1 =>
      have k1 := write_memory_frame _ _ _ _ st s1 ⟨rfl, rfl⟩ h1
      cases h2 : write_memory s1 (s1.i + 1) (((s1.v x / 10) % 10) % 256) with
      | none => simp [h1, h2] at h
      | some s2 =>
        have k2 := write_memory_frame _ _ _ _ s1 s2 k1 h2
        cases h3 : write_memory s2 (s2.i + 2) (((s2.v x % 100) % 10) % 256) with
        | none => simp [h1, h2, h3] at h
        | some s3 =>
          have k3 := write_memory_frame _ _ _ _ s2 s3 k2 h3
          simp only [h1, h2, h3, Option.bind, Option.map, Option.some.injEq,
            Prod.mk.injEq] at h
          obtain ⟨rfl, rfl⟩ := h
          exact k3
  by_cases h55 : nn = 0x55
  · subst h55
    rw [exec_F_55] at h
    cases h1 : for_loop store_reg x st with
    | none => simp [h1] at h
    | some s1 =>
      have k1 := for_loop_keeps store_reg (fun u => u.sp = st.sp ∧ u.graphics = st.graphics)
        (fun k u u' hu hk => store_reg_frame k _ _ u u' hu hk) _ st s1 ⟨rfl, rfl⟩ h1
      simp only [h1, Option.map, Option.some.injEq, Prod.mk.injEq] at h
      obtain ⟨rfl, rfl⟩ := h
      exact k1
  by_cases h65 : nn = 0x65
  · subst h65
    rw [exec_F_65] at h
    cases h1 : for_loop load_reg x st with
    | none => simp [h1] at h
    | some s1 =>
      have k1 := for_loop_keeps load_reg (fun u => u.sp = st.sp ∧ u.graphics = st.graphics)
        (fun k u u' hu hk => load_reg_frame k _ _ u u' hu hk) _ st s1 ⟨rfl, rfl⟩ h1
      simp only [h1, Option.map, Option.some.injEq, Prod.mk.injEq] at h
      obtain ⟨rfl, rfl⟩ := h
      exact k1
  rw [exec_F_other nn x st (by simp [h07, h0A, h15, h18, h1E, h29, h33, h55, h65]),
    Option.some.injEq, Prod.mk.injEq] at h
  obtain ⟨rfl, rfl⟩ := h
  exact ⟨rfl, rfl⟩

/-- Outside the families 0, 2 and D the dispatch writes neither the stack pointer nor
the framebuffer. -/
theorem execute_frame (rnd op : Nat) (st t : Chip8_state) (b : Bool)
    (h0 : op_first op ≠ 0) (h2 : op_first op ≠ 2) (hD : op_first op ≠ 13)
    (h : execute rnd op st = some (t, b)) : t.sp = st.sp ∧ t.graphics = st.graphics := by
  have hf := op_first_eq op
  obtain ⟨f, hfe⟩ : ∃ f, op_first op = f := ⟨_, rfl⟩
  have hf16 : f < 16 := by omega
  rw [hfe] at h0 h2 hD
  simp only [execute, hfe] at h
  interval_cases f
  · exact absurd rfl h0
  · simp only [Option.some.injEq, Prod.mk.injEq] at h
    obtain ⟨rfl, rfl⟩ := h
    exact ⟨rfl, rfl⟩
  · exact absurd rfl h2
  · simp only [Option.some.injEq, Prod.mk.injEq] at h
    obtain ⟨rfl, rfl⟩ := h
    exact ⟨rfl, rfl⟩
  · simp only [Option.some.injEq, Prod.mk.injEq] at h
    obtain ⟨rfl, rfl⟩ := h
    exact ⟨rfl, rfl⟩
  · simp only [Option.some.injEq, Prod.mk.injEq] at h
    obtain ⟨rfl, rfl⟩ := h
    constructor <;> simp only [advance] <;> split_ifs <;> rfl
  · simp only [Option.some.injEq, Prod.mk.injEq] at h
    obtain ⟨rfl, rfl⟩ := h
    exact ⟨rfl, rfl⟩
  · simp only [Option.some.injEq, Prod.mk.injEq] at h
    obtain ⟨rfl, rfl⟩ := h
    exact ⟨rfl, rfl⟩
  · simp only [Option.some.injEq, Prod.mk.injEq] at h
    obtain ⟨rfl, rfl⟩ := h
    exact exec_8_frame _ _ _ _
  · simp only [Option.some.injEq, Prod.mk.injEq] at h
    obtain ⟨rfl, rfl⟩ := h
    constructor <;> simp only [advance] <;> split_ifs <;> rfl
  · simp only [Option.some.injEq, Prod.mk.injEq] at h
    obtain ⟨rfl, rfl⟩ := h
    exact ⟨rfl, rfl⟩
  · simp only [Option.some.injEq, Prod.mk.injEq] at h
    obtain ⟨rfl, rfl⟩ := h
    exact ⟨rfl, rfl⟩
  · simp only [Option.some.injEq, Prod.mk.injEq] at h
    obtain ⟨rfl, rfl⟩ := h
    exact ⟨rfl, rfl⟩
  · exact absurd rfl hD
  · obtain ⟨h1, -⟩ := map_reaches_timers _ t b h
    exact exec_E_frame _ _ _ _ h1
  · exact exec_F_frame _ _ _ _ _ h

/-- What a defined step leaves in the result, read off the dispatch. -/
theorem process_instruction_result (rnd : Nat) (s s' : Chip8_state) (op : Nat)
    (hop : fetch s = some op) (hstep : process_instruction rnd s = some s') :
    ∃ t b, execute rnd op { s with draw := 0 } = some (t, b) ∧
      s'.sp = t.sp ∧ s'.graphics = t.graphics := by
  rw [process_instruction_of_fetch rnd s _ hop] at hstep
  cases hex : execute rnd op { s with draw := 0 } with
  | none => simp [hex] at hstep
  | some r =>
    obtain ⟨t, b⟩ := r
    rw [hex] at hstep
    simp only [Option.map, Option.some.injEq] at hstep
    subst hstep
    refine ⟨t, b, rfl, ?_, ?_⟩ <;> split_ifs <;> simp


/-! ## The whole sprite draw step -/

/-- The step on an opcode Dxyn whose rows lie inside memory and whose cells lie inside
the flat framebuffer array: it is defined, memory, index register and the registers
other than VF are unchanged, the program counter advances by 2, the cell of every set
sprite bit is toggled and no other cell changes. -/
theorem draw_step (rnd : Nat) (s : Chip8_state) (x y n : Nat)
    (hx : x < 16) (hy : y < 16) (hn : n < 16)
    (hop : fetch s = some (0xD000 + 0x100 * x + 0x10 * y + n))
    (hmem : ∀ r, r < n → s.i + r < 4096)
    (hrange : ∀ r, r < n → s.v x + 8 + (s.v y + r) * 64 ≤ 2048) :
    ∃ s', process_instruction rnd s = some s' ∧
      s'.memory = s.memory ∧ s'.i = s.i ∧ s'.pc = s.pc + 2 ∧
      (∀ j, j ≠ 15 → s'.v j = s.v j) ∧
      (∀ idx, (∃ r c, r < n ∧ c < 8 ∧ s.memory (s.i + r) &&& (128 >>> c) ≠ 0 ∧
          idx = s.v x + c + (s.v y + r) * 64) →
        s'.graphics idx = (s.graphics idx ^^^ 1) % 256) ∧
      (∀ idx, (¬ ∃ r c, r < n ∧ c < 8 ∧ s.memory (s.i + r) &&& (128 >>> c) ≠ 0 ∧
          idx = s.v x + c + (s.v y + r) * 64) → s'.graphics idx = s.graphics idx) := by
  have h1 : op_first (0xD000 + 0x100 * x + 0x10 * y + n) = 13 := by rw [op_first_eq]; omega
  have h2 : (0xD000 + 0x100 * x + 0x10 * y + n) &&& 0x000F = n := by
    have := op_n_eq (0xD000 + 0x100 * x + 0x10 * y + n)
    unfold op_n at this
    omega
  have h3 : ((0xD000 + 0x100 * x + 0x10 * y + n) &&& 0x0F00) >>> 8 = x := by
    rw [draw_operand_x]; omega
  have h4 : ((0xD000 + 0x100 * x + 0x10 * y + n) &&& 0x00F0) >>> 4 = y := by
    rw [draw_operand_y]; omega
  have hpc := fetch_pc_lt s _ hop
  obtain ⟨t, ht, hsame, hv, -, -, hflip, hkeep⟩ :=
    draw_row_loop_flat (s.v x) (s.v y) { s with draw := 0, v := store s.v 0xF 0 } n
      hrange hmem
  refine ⟨tick_timers (advance { t with draw := 1 }), ?_, ?_, ?_, ?_, ?_, ?_, ?_⟩
  · rw [process_instruction_of_fetch rnd s _ hop]
    simp only [execute, h1, exec_D, h2, h3, h4, ht, Option.map]
    rfl
  · rw [tick_timers_memory]
    exact hsame.1
  · rw [tick_timers_i]
    exact hsame.2.1
  · rw [tick_timers_pc]
    have hp : t.pc = s.pc := hsame.2.2.1
    simp only [advance, hp]
    omega
  · intro j hj
    rw [tick_timers_v]
    have := hv j hj
    simpa [store, hj] using this
  · intro idx hidx
    rw [tick_timers_graphics]
    exact hflip idx hidx
  · intro idx hidx
    rw [tick_timers_graphics]
    exact hkeep idx hidx


/-! ## Framebuffer cells as bits -/

theorem draw_pixel_bits (xx yy r p c : Nat) (st st' : Chip8_state)
    (hP : framebuffer_bits st) (h : draw_pixel xx yy r p c st = some st') :
    framebuffer_bits st' := by
  simp only [draw_pixel, graphics_width_eq, graphics_size_eq] at h
  split_ifs at h with hb hrange hg
  · simp only [Option.some.injEq] at h
    subst h
    intro k hk
    by_cases hk2 : k = xx + c + (yy + r) * 64
    · subst hk2
      left
      simp [store, hg]
    · simp only [store, hk2, if_false]
      exact hP k hk
  · simp only [Option.some.injEq] at h
    subst h
    intro k hk
    by_cases hk2 : k = xx + c + (yy + r) * 64
    · subst hk2
      rcases hP _ hk with h0 | h1
      · right
        simp [store, h0]
      · exact absurd h1 hg
    · simp only [store, hk2, if_false]
      exact hP k hk
  · simp only [Option.some.injEq] at h
    subst h
    exact hP

theorem draw_row_bits (xx yy r : Nat) (st st' : Chip8_state)
    (hP : framebuffer_bits st) (h : draw_row xx yy r st = some st') :
    framebuffer_bits st' := by
  unfold draw_row at h
  split_ifs at h
  exact for_loop_keeps _ framebuffer_bits
    (fun c u u' hu hc => draw_pixel_bits xx yy r _ c u u' hu hc) 8 st st' hP h

theorem exec_D_bits (op : Nat) (st t : Chip8_state) (hP : framebuffer_bits st)
    (h : exec_D op st = some t) : framebuffer_bits t := by
  unfold exec_D at h
  dsimp only at h
  cases hrun : for_loop (draw_row (st.v ((op &&& 0x0F00) >>> 8)) (st.v ((op &&& 0x00F0) >>> 4)))
      (op &&& 0x000F) { st with v := store st.v 0xF 0 } with
  | none => simp [hrun] at h
  | some u =>
    have k := for_loop_keeps
      (draw_row (st.v ((op &&& 0x0F00) >>> 8)) (st.v ((op &&& 0x00F0) >>> 4)))
      framebuffer_bits (fun r w w' hw hr => draw_row_bits _ _ r w w' hw hr)
      (op &&& 0x000F) { st with v := store st.v 0xF 0 } u hP hrun
    simp only [hrun, Option.map, Option.some.injEq] at h
    subst h
    exact k

/-- A defined step keeps every framebuffer cell at 0 or 1. -/
theorem step_keeps_bits (rnd : Nat) (s s' : Chip8_state) (hP : framebuffer_bits s)
    (hstep : process_instruction rnd s = some s') : framebuffer_bits s' := by
  cases hop : fetch s with
  | none => simp [process_instruction, hop] at hstep
  | some op =>
    obtain ⟨t, b, hex, -, hg⟩ := process_instruction_result rnd s s' op hop hstep
    have hgoal : framebuffer_bits t → framebuffer_bits s' := by
      intro ht k hk
      rw [hg]
      exact ht k hk
    apply hgoal
    by_cases h0 : op_first op = 0
    · simp only [execute, h0] at hex
      obtain ⟨h1, -⟩ := map_reaches_timers _ t b hex
      unfold exec_0 at h1
      split_ifs at h1 with hE0 hEE hguard
      · simp only [Option.some.injEq] at h1
        subst h1
        intro k hk
        left
        show (if k < graphics_size then 0 else s.graphics k) = 0
        rw [if_pos hk]
      · simp only [Option.some.injEq] at h1
        subst h1
        exact hP
      · simp only [Option.some.injEq] at h1
        subst h1
        exact hP
    by_cases h2 : op_first op = 2
    · simp only [execute, h2] at hex
      obtain ⟨h1, -⟩ := map_reaches_timers _ t b hex
      unfold exec_2 at h1
      dsimp only at h1
      split_ifs at h1 with hguard
      simp only [Option.some.injEq] at h1
      subst h1
      exact hP
    by_cases hD : op_first op = 13
    · simp only [execute, hD] at hex
      obtain ⟨h1, -⟩ := map_reaches_timers _ t b hex
      exact exec_D_bits op { s with draw := 0 } t hP h1
    · intro k hk
      rw [(execute_frame rnd op _ t b h0 h2 hD hex).2]
      exact hP k hk


/-! ## Drawing twice -/

/-- Toggling the low bit of a byte twice gives the byte back. -/
theorem toggle_twice (g : Nat) (hg : g < 256) : ((g ^^^ 1) % 256 ^^^ 1) % 256 = g := by
  have h1 : g ^^^ 1 < 256 := @Nat.xor_lt_two_pow g 1 8 (by omega) (by decide)
  rw [Nat.mod_eq_of_lt h1, Nat.xor_assoc, Nat.xor_self, Nat.xor_zero, Nat.mod_eq_of_lt hg]

theorem fetch_congr (a b : Chip8_state) (hm : a.memory = b.memory) (hp : a.pc = b.pc) :
    fetch a = fetch b := by
  simp only [fetch, hm, hp]


/-! ## The 8-bit fields stay 8-bit -/

theorem store_lt (a : Nat → Nat) (k val : Nat) (ha : ∀ j, a j < 256) (hv : val < 256) :
    ∀ j, store a k val j < 256 := by
  intro j
  by_cases h : j = k
  · simp [store, h, hv]
  · simp only [store, h, if_false]
    exact ha j

/-- A property kept by every iteration below the count is kept by the loop. -/
theorem for_loop_keeps_below {σ : Type} (body : Nat → σ → Option σ) (P : σ → Prop) (n : Nat)
    (hbody : ∀ k st st', k < n → P st → body k st = some st' → P st') :
    ∀ k, k ≤ n → ∀ st st', P st → for_loop body k st = some st' → P st' := by
  intro k
  induction k with
  | zero =>
    intro _ st st' hP h
    simp only [for_loop, Option.some.injEq] at h
    exact h ▸ hP
  | succ k ih =>
    intro hk st st' hP h
    simp only [for_loop] at h
    cases hrun : for_loop body k st with
    | none => simp [hrun] at h
    | some u =>
      rw [hrun] at h
      exact hbody k u st' (by omega) (ih (by omega) st u hP hrun) h

theorem tick_timers_bytes (s : Chip8_state) (h : bytes_in_range s) :
    bytes_in_range (tick_timers s) := by
  obtain ⟨hm, hv, hd, hs⟩ := h
  refine ⟨?_, ?_, ?_, ?_⟩
  · rw [tick_timers_memory]; exact hm
  · rw [tick_timers_v]; exact hv
  · rw [tick_timers_delay]; omega
  · rw [tick_timers_sound]; omega

theorem exec_8_bytes (n x y : Nat) (st : Chip8_state) (h : bytes_in_range st) :
    bytes_in_range (exec_8 n x y st) := by
  obtain ⟨hm, hv, hd, hs⟩ := h
  have h01 : ∀ (c : Prop) [Decidable c], (if c then 1 else 0) < 256 := by
    intro c _
    split_ifs <;> decide
  unfold exec_8
  split
  · exact ⟨hm, store_lt _ _ _ hv (hv y), hd, hs⟩
  · exact ⟨hm, store_lt _ _ _ hv (Nat.mod_lt _ (by decide)), hd, hs⟩
  · exact ⟨hm, store_lt _ _ _ hv (Nat.mod_lt _ (by decide)), hd, hs⟩
  · exact ⟨hm, store_lt _ _ _ hv (Nat.mod_lt _ (by decide)), hd, hs⟩
  · exact ⟨hm, store_lt _ _ _ (store_lt _ _ _ hv (h01 _)) (Nat.mod_lt _ (by decide)), hd, hs⟩
  · refine ⟨hm, store_lt _ _ _ (store_lt _ _ _ hv (h01 _)) ?_, hd, hs⟩
    omega
  · exact ⟨hm, store_lt _ _ _ (store_lt _ _ _ hv (Nat.mod_lt _ (by decide)))
      (Nat.mod_lt _ (by decide)), hd, hs⟩
  · refine ⟨hm, store_lt _ _ _ (store_lt _ _ _ hv (h01 _)) ?_, hd, hs⟩
    omega
  · exact ⟨hm, store_lt _ _ _ (store_lt _ _ _ hv (Nat.mod_lt _ (by decide)))
      (Nat.mod_lt _ (by decide)), hd, hs⟩
  · exact ⟨hm, hv, hd, hs⟩

theorem draw_pixel_bytes (xx yy r p c : Nat) (st st' : Chip8_state)
    (hP : bytes_in_range st) (h : draw_pixel xx yy r p c st = some st') :
    bytes_in_range st' := by
  obtain ⟨hm, hv, hd, hs⟩ := hP
  unfold draw_pixel at h
  split_ifs at h <;> simp only [Option.some.injEq] at h <;> subst h
  · exact ⟨hm, store_lt _ _ _ hv (by decide), hd, hs⟩
  · exact ⟨hm, hv, hd, hs⟩
  · exact ⟨hm, hv, hd, hs⟩

theorem draw_row_bytes (xx yy r : Nat) (st st' : Chip8_state)
    (hP : bytes_in_range st) (h : draw_row xx yy r st = some st') : bytes_in_range st' := by
  unfold draw_row at h
  split_ifs at h
  exact for_loop_keeps _ bytes_in_range
    (fun c u u' hu hc => draw_pixel_bytes xx yy r _ c u u' hu hc) 8 st st' hP h

theorem exec_D_bytes (op : Nat) (st t : Chip8_state) (hP : bytes_in_range st)
    (h : exec_D op st = some t) : bytes_in_range t := by
  obtain ⟨hm, hv, hd, hs⟩ := hP
  unfold exec_D at h
  dsimp only at h
  cases hrun : for_loop (draw_row (st.v ((op &&& 0x0F00) >>> 8)) (st.v ((op &&& 0x00F0) >>> 4)))
      (op &&& 0x000F) { st with v := store st.v 0xF 0 } with
  | none => simp [hrun] at h
  | some u =>
    have k := for_loop_keeps
      (draw_row (st.v ((op &&& 0x0F00) >>> 8)) (st.v ((op &&& 0x00F0) >>> 4)))
      bytes_in_range (fun r w w' hw hr => draw_row_bytes _ _ r w w' hw hr)
      (op &&& 0x000F) { st with v := store st.v 0xF 0 } u
      ⟨hm, store_lt _ _ _ hv (by decide), hd, hs⟩ hrun
    simp only [hrun, Option.map, Option.some.injEq] at h
    subst h
    exact k

theorem exec_E_bytes (nn x : Nat) (st t : Chip8_state) (hP : bytes_in_range st)
    (h : exec_E nn x st = some t) : bytes_in_range t := by
  unfold exec_E at h
  split_ifs at h <;> simp only [Option.some.injEq] at h <;> subst h <;> exact hP

theorem key_scan_bytes (x k : Nat) (acc acc' : Chip8_state × Bool) (hk : k < 16)
    (hP : bytes_in_range acc.1) (h : key_scan x k acc = some acc') :
    bytes_in_range acc'.1 := by
  obtain ⟨hm, hv, hd, hs⟩ := hP
  unfold key_scan at h
  split_ifs at h <;> simp only [Option.some.injEq] at h <;> subst h
  · exact ⟨hm, store_lt _ _ _ hv (by omega), hd, hs⟩
  · exact ⟨hm, hv, hd, hs⟩

theorem store_reg_bytes (k : Nat) (st st' : Chip8_state) (hP : bytes_in_range st)
    (h : store_reg k st = some st') : bytes_in_range st' := by
  obtain ⟨hm, hv, hd, hs⟩ := hP
  unfold store_reg at h
  split_ifs at h
  simp only [Option.some.injEq] at h
  subst h
  exact ⟨store_lt _ _ _ hm (hv k), hv, hd, hs⟩

theorem load_reg_bytes (k : Nat) (st st' : Chip8_state) (hP : bytes_in_range st)
    (h : load_reg k st = some st') : bytes_in_range st' := by
  obtain ⟨hm, hv, hd, hs⟩ := hP
  unfold load_reg at h
  split_ifs at h
  simp only [Option.some.injEq] at h
  subst h
  exact ⟨hm, store_lt _ _ _ hv (hm _), hd, hs⟩

theorem write_memory_bytes (k val : Nat) (st st' : Chip8_state) (hval : val < 256)
    (hP : bytes_in_range st) (h : write_memory st k val = some st') :
    bytes_in_range st' := by
  obtain ⟨hm, hv, hd, hs⟩ := hP
  unfold write_memory at h
  split_ifs at h
  simp only [Option.some.injEq] at h
  subst h
  exact ⟨store_lt _ _ _ hm hval, hv, hd, hs⟩

theorem exec_F_bytes (nn x : Nat) (st t : Chip8_state) (b : Bool)
    (hP : bytes_in_range st) (h : exec_F nn x st = some (t, b)) : bytes_in_range t := by
  have hP' := hP
  obtain ⟨hm, hv, hd, hs⟩ := hP'
  by_cases h07 : nn = 0x07
  · subst h07
    rw [exec_F_07, Option.some.injEq, Prod.mk.injEq] at h
    obtain ⟨rfl, rfl⟩ := h
    exact ⟨hm, store_lt _ _ _ hv hd, hd, hs⟩
  by_cases h0A : nn = 0x0A
  · subst h0A
    rw [exec_F_wait, keyboard_size_eq] at h
    cases hscan : for_loop (key_scan x) 16 (st, false) with
    | none => simp [hscan] at h
    | some r =>
      have k := for_loop_keeps_below (key_scan x) (fun a => bytes_in_range a.1) 16
        (fun k a a' hk ha hb => key_scan_bytes x k a a' hk ha hb) 16 (Nat.le_refl _)
        (st, false) r hP hscan
      rw [hscan] at h
      simp only [Option.map, Option.some.injEq] at h
      split_ifs at h <;> simp only [Prod.mk.injEq] at h <;> obtain ⟨rfl, rfl⟩ := h <;> exact k
  by_cases h15 : nn = 0x15
  · subst h15
    rw [exec_F_15, Option.some.injEq, Prod.mk.injEq] at h
    obtain ⟨rfl, rfl⟩ := h
    exact ⟨hm, hv, hv x, hs⟩
  by_cases h18 : nn = 0x18
  · subst h18
    rw [exec_F_18, Option.some.injEq, Prod.mk.injEq] at h
    obtain ⟨rfl, rfl⟩ := h
    exact ⟨hm, hv, hd, hv x⟩
  by_cases h1E : nn = 0x1E
  · subst h1E
    rw [exec_F_1E, Option.some.injEq, Prod.mk.injEq] at h
    obtain ⟨rfl, rfl⟩ := h
    exact hP
  by_cases h29 : nn = 0x29
  · subst h29
    rw [exec_F_29, Option.some.injEq, Prod.mk.injEq] at h
    obtain ⟨rfl, rfl⟩ := h
    exact hP
  by_cases h33 : nn = 0x33
  · subst h33
    rw [exec_F_33] at h
    cases h1 : write_memory st st.i ((st.v x / 100) % 256) with
    | none => simp [h1] at h
    | some s1 =>
      have k1 := write_memory_bytes _ _ st s1 (Nat.mod_lt _ (by decide)) hP h1
      cases h2 : write_memory s1 (s1.i + 1) (((s1.v x / 10) % 10) % 256) with
      | none => simp [h1, h2] at h
      | some s2 =>
        have k2 := write_memory_bytes _ _ s1 s2 (Nat.mod_lt _ (by decide)) k1 h2
        cases h3 : write_memory s2 (s2.i + 2) (((s2.v x % 100) % 10) % 256) with
        | none => simp [h1, h2, h3] at h
        | some s3 =>
          have k3 := write_memory_bytes _ _ s2 s3 (Nat.mod_lt _ (by decide)) k2 h3
          simp only [h1, h2, h3, Option.bind, Option.map, Option.some.injEq,
            Prod.mk.injEq] at h
          obtain ⟨rfl, rfl⟩ := h
          exact k3
  by_cases h55 : nn = 0x55
  · subst h55
    rw [exec_F_55] at h
    cases h1 : for_loop store_reg x st with
    | none => simp [h1] at h
    | some s1 =>
      have k1 := for_loop_keeps store_reg bytes_in_range
        (fun k u u' hu hk => store_reg_bytes k u u' hu hk) _ st s1 hP h1
      simp only [h1, Option.map, Option.some.injEq, Prod.mk.injEq] at h
      obtain ⟨rfl, rfl⟩ := h
      exact k1
  by_cases h65 : nn = 0x65
  · subst h65
    rw [exec_F_65] at h
    cases h1 : for_loop load_reg x st with
    | none => simp [h1] at h
    | some s1 =>
      have k1 := for_loop_keeps load_reg bytes_in_range
        (fun k u u' hu hk => load_reg_bytes k u u' hu hk) _ st s1 hP h1
      simp only [h1, Option.map, Option.some.injEq, Prod.mk.injEq] at h
      obtain ⟨rfl, rfl⟩ := h
      exact k1
  rw [exec_F_other nn x st (by simp [h07, h0A, h15, h18, h1E, h29, h33, h55, h65]),
    Option.some.injEq, Prod.mk.injEq] at h
  obtain ⟨rfl, rfl⟩ := h
  exact hP

theorem execute_bytes (rnd op : Nat) (st t : Chip8_state) (b : Bool)
    (hP : bytes_in_range st) (h : execute rnd op st = some (t, b)) : bytes_in_range t := by
  have hP' := hP
  obtain ⟨hm, hv, hd, hs⟩ := hP'
  have hf := op_first_eq op
  have hnn := op_nn_eq op
  obtain ⟨f, hfe⟩ : ∃ f, op_first op = f := ⟨_, rfl⟩
  have hf16 : f < 16 := by omega
  simp only [execute, hfe] at h
  interval_cases f
  · obtain ⟨h1, -⟩ := map_reaches_timers _ t b h
    unfold exec_0 at h1
    split_ifs at h1 <;> simp only [Option.some.injEq] at h1 <;> subst h1 <;> exact hP
  · simp only [Option.some.injEq, Prod.mk.injEq] at h
    obtain ⟨rfl, rfl⟩ := h
    exact hP
  · obtain ⟨h1, -⟩ := map_reaches_timers _ t b h
    unfold exec_2 at h1
    dsimp only at h1
    split_ifs at h1
    simp only [Option.some.injEq] at h1
    subst h1
    exact hP
  · simp only [Option.some.injEq, Prod.mk.injEq] at h
    obtain ⟨rfl, rfl⟩ := h
    exact hP
  · simp only [Option.some.injEq, Prod.mk.injEq] at h
    obtain ⟨rfl, rfl⟩ := h
    exact hP
  · simp only [Option.some.injEq, Prod.mk.injEq] at h
    obtain ⟨rfl, rfl⟩ := h
    simp only [advance]
    split_ifs <;> exact hP
  · simp only [Option.some.injEq, Prod.mk.injEq] at h
    obtain ⟨rfl, rfl⟩ := h
    exact ⟨hm, store_lt _ _ _ hv (by omega), hd, hs⟩
  · simp only [Option.some.injEq, Prod.mk.injEq] at h
    obtain ⟨rfl, rfl⟩ := h
    exact ⟨hm, store_lt _ _ _ hv (Nat.mod_lt _ (by decide)), hd, hs⟩
  · simp only [Option.some.injEq, Prod.mk.injEq] at h
    obtain ⟨rfl, rfl⟩ := h
    exact exec_8_bytes _ _ _ _ hP
  · simp only [Option.some.injEq, Prod.mk.injEq] at h
    obtain ⟨rfl, rfl⟩ := h
    simp only [advance]
    split_ifs <;> exact hP
  · simp only [Option.some.injEq, Prod.mk.injEq] at h
    obtain ⟨rfl, rfl⟩ := h
    exact hP
  · simp only [Option.some.injEq, Prod.mk.injEq] at h
    obtain ⟨rfl, rfl⟩ := h
    exact hP
  · simp only [Option.some.injEq, Prod.mk.injEq] at h
    obtain ⟨rfl, rfl⟩ := h
    exact ⟨hm, store_lt _ _ _ hv (Nat.mod_lt _ (by decide)), hd, hs⟩
  · obtain ⟨h1, -⟩ := map_reaches_timers _ t b h
    exact exec_D_bytes _ _ _ hP h1
  · obtain ⟨h1, -⟩ := map_reaches_timers _ t b h
    exact exec_E_bytes _ _ _ _ hP h1
  · exact exec_F_bytes _ _ _ _ _ hP h

/-- A defined step keeps the 8-bit fields 8-bit. -/
theorem step_keeps_bytes (rnd : Nat) (s s' : Chip8_state) (hP : bytes_in_range s)
    (hstep : process_instruction rnd s = some s') : bytes_in_range s' := by
  cases hop : fetch s with
  | none => simp [process_instruction, hop] at hstep
  | some op =>
    rw [process_instruction_of_fetch rnd s _ hop] at hstep
    cases hex : execute rnd op { s with draw := 0 } with
    | none => simp [hex] at hstep
    | some r =>
      obtain ⟨t, b⟩ := r
      rw [hex] at hstep
      have ht := execute_bytes rnd op { s with draw := 0 } t b hP hex
      simp only [Option.map, Option.some.injEq] at hstep
      subst hstep
      split_ifs
      · exact tick_timers_bytes t ht
      · exact ht

/-- The start state with the glyph table and a ROM of bytes loaded has its 8-bit
fields 8-bit, and so has every state the host loop reaches from it. -/
theorem reachable_bytes (bytes : List Nat) (s0 : Chip8_state)
    (hrom : ∀ k, bytes.getD k 0 < 256)
    (hload : load_rom (load_font initial_state) (Rom_file.readable bytes) =
      Except.ok (some s0))
    (rnd : Nat → Nat) (keys : Nat → Nat → Nat) :
    ∀ k s', run rnd keys k s0 = some s' → bytes_in_range s' := by
  have h0 : bytes_in_range s0 := by
    simp only [load_rom] at hload
    split_ifs at hload
    · simp only [Except.ok.injEq, Option.some.injEq] at hload
      subst hload
      refine ⟨?_, ?_, ?_, ?_⟩
      · intro k
        simp only [copy_block, load_font]
        split_ifs
        · exact hrom _
        · have hfont : ∀ j, j < 80 → font_data.getD j 0 < 256 := by decide
          have h80 : font_data.length = 80 := rfl
          exact hfont _ (by omega)
        · exact Nat.zero_lt_succ _
      · intro j
        exact Nat.zero_lt_succ _
      · exact Nat.zero_lt_succ _
      · exact Nat.zero_lt_succ _
    · simp at hload
  intro k
  induction k with
  | zero =>
    intro s' hrun
    simp only [run, Option.some.injEq] at hrun
    subst hrun
    exact h0
  | succ k ih =>
    intro s' hrun
    simp only [run] at hrun
    cases hk : run rnd keys k s0 with
    | none => simp [hk] at hrun
    | some u =>
      rw [hk] at hrun
      exact step_keeps_bytes (rnd k) (set_keys (keys k) u) s' (ih u hk) hrun


/-! ## The flag of the subtraction and the flag as an operand -/

/-- The step on 8xy5 with x and y different from 0xF, on 8-bit operands a = Vx and
b = Vy: Vx becomes (a - b) mod 256 and VF is 1 exactly when a > b, so VF is 0 for
a = b as it is for a < b. -/
theorem subtract_flag_strict (rnd : Nat) (s : Chip8_state) (x y : Nat)
    (hx : x < 16) (hy : y < 16) (hxF : x ≠ 0xF) (hyF : y ≠ 0xF)
    (hop : fetch s = some (0x8005 + 0x100 * x + 0x10 * y))
    (ha : s.v x < 256) (hb : s.v y < 256) :
    ∃ s', process_instruction rnd s = some s' ∧
      s'.v 0xF = (if s.v x > s.v y then 1 else 0) ∧
      s'.v x = (s.v x + 256 - s.v y) % 256 := by
  have h1 : op_first (0x8005 + 0x100 * x + 0x10 * y) = 8 := by rw [op_first_eq]; omega
  have h2 : op_n (0x8005 + 0x100 * x + 0x10 * y) = 5 := by rw [op_n_eq]; omega
  have h3 : op_x (0x8005 + 0x100 * x + 0x10 * y) = x := by rw [op_x_eq]; omega
  have h4 : op_y (0x8005 + 0x100 * x + 0x10 * y) = y := by rw [op_y_eq]; omega
  refine ⟨_, by rw [process_instruction_of_fetch rnd s _ hop]; simp only [execute, h1, h2,
    h3, h4, Option.map]; rfl, ?_, ?_⟩
  · simp [exec_8, advance, store, hxF, hyF, Ne.symm hxF]
  · simp only [exec_8, advance, store, hxF, hyF, tick_timers_v, if_true, if_false]
    omega

/-- The step on 8xF4 with x different from 0xF, a = Vx and f = VF before the step:
VF becomes the carry of a + f, and Vx becomes a plus that carry modulo 256, since the
addition reads VF after the flag store. -/
theorem add_flag_operand (rnd : Nat) (s : Chip8_state) (x : Nat)
    (hx : x < 16) (hxF : x ≠ 0xF)
    (hop : fetch s = some (0x80F4 + 0x100 * x)) :
    ∃ s', process_instruction rnd s = some s' ∧
      s'.v 0xF = (if s.v x + s.v 0xF > 255 then 1 else 0) ∧
      s'.v x = (s.v x + (if s.v x + s.v 0xF > 255 then 1 else 0)) % 256 := by
  have h1 : op_first (0x80F4 + 0x100 * x) = 8 := by rw [op_first_eq]; omega
  have h2 : op_n (0x80F4 + 0x100 * x) = 4 := by rw [op_n_eq]; omega
  have h3 : op_x (0x80F4 + 0x100 * x) = x := by rw [op_x_eq]; omega
  have h4 : op_y (0x80F4 + 0x100 * x) = 15 := by rw [op_y_eq]; omega
  refine ⟨_, by rw [process_instruction_of_fetch rnd s _ hop]; simp only [execute, h1, h2,
    h3, h4, Option.map]; rfl, ?_, ?_⟩
  · simp [exec_8, advance, store, hxF, Ne.symm hxF]
  · simp [exec_8, advance, store, hxF, Ne.symm hxF]


/-! # The claims -/

/-- C1: for an opcode 8xy4 with x and y both different from 0xF, the step is defined,
VF becomes 1 when Vx + Vy exceeds 255 and 0 otherwise, and Vx becomes the sum
modulo 256, the operands being the register values before the step. -/
theorem add_carry_flag_and_sum (rnd : Nat) (s : Chip8_state) (x y : Nat)
    (hx : x < 16) (hy : y < 16) (hxF : x ≠ 0xF) (hyF : y ≠ 0xF)
    (hop : fetch s = some (0x8004 + 0x100 * x + 0x10 * y)) :
    ∃ s', process_instruction rnd s = some s' ∧
      s'.v 0xF = (if s.v x + s.v y > 255 then 1 else 0) ∧
      s'.v x = (s.v x + s.v y) % 256 := by
  have h1 : op_first (0x8004 + 0x100 * x + 0x10 * y) = 8 := by rw [op_first_eq]; omega
  have h2 : op_n (0x8004 + 0x100 * x + 0x10 * y) = 4 := by rw [op_n_eq]; omega
  have h3 : op_x (0x8004 + 0x100 * x + 0x10 * y) = x := by rw [op_x_eq]; omega
  have h4 : op_y (0x8004 + 0x100 * x + 0x10 * y) = y := by rw [op_y_eq]; omega
  refine ⟨_, by rw [process_instruction_of_fetch rnd s _ hop]; simp only [execute, h1, h2, h3, h4, Option.map]; rfl, ?_, ?_⟩
  · simp [exec_8, advance, store, hxF, hyF, Ne.symm hxF]
  · simp [exec_8, advance, store, hxF, hyF]

/-- C1 at V1 = 200, V2 = 100: the sum 300 sets VF and leaves 44 in V1. -/
theorem add_carry_flag_and_sum_witness :
    fetch add_carry_state = some 0x8124 ∧
    ∃ s', process_instruction 0 add_carry_state = some s' ∧ s'.v 0xF = 1 ∧ s'.v 1 = 44 :=
  ⟨by decide, add_carry_flag_and_sum 0 add_carry_state 1 2 (by decide) (by decide)
    (by decide) (by decide) (by decide)⟩

/-- C2: for an opcode Dxyn whose sprite rows lie inside memory and whose cells lie
inside the framebuffer (Vx at most 56, Vy + n at most 32), the step is defined and VF
is 1 when some set sprite bit (row r, column c, bit 7 - c of memory[I + r]) meets a
cell (Vx + c, Vy + r) that held 1 before the step, and 0 when there is no such bit,
Vx and Vy being the register values before the step. -/
theorem draw_collision_flag (rnd : Nat) (s : Chip8_state) (x y n : Nat)
    (hx : x < 16) (hy : y < 16) (hn : n < 16)
    (hop : fetch s = some (0xD000 + 0x100 * x + 0x10 * y + n))
    (hmem : ∀ r, r < n → s.i + r < 4096) (hvx : s.v x ≤ 56) (hvy : s.v y + n ≤ 32) :
    ∃ s', process_instruction rnd s = some s' ∧
      ((∃ r c, r < n ∧ c < 8 ∧ (s.memory (s.i + r)).testBit (7 - c) = true ∧
          s.graphics (s.v x + c + (s.v y + r) * 64) = 1) → s'.v 0xF = 1) ∧
      ((¬ ∃ r c, r < n ∧ c < 8 ∧ (s.memory (s.i + r)).testBit (7 - c) = true ∧
          s.graphics (s.v x + c + (s.v y + r) * 64) = 1) → s'.v 0xF = 0) := by
  have h1 : op_first (0xD000 + 0x100 * x + 0x10 * y + n) = 13 := by rw [op_first_eq]; omega
  have h2 : (0xD000 + 0x100 * x + 0x10 * y + n) &&& 0x000F = n := by
    have := op_n_eq (0xD000 + 0x100 * x + 0x10 * y + n)
    unfold op_n at this
    omega
  have h3 : ((0xD000 + 0x100 * x + 0x10 * y + n) &&& 0x0F00) >>> 8 = x := by
    rw [draw_operand_x]; omega
  have h4 : ((0xD000 + 0x100 * x + 0x10 * y + n) &&& 0x00F0) >>> 4 = y := by
    rw [draw_operand_y]; omega
  obtain ⟨t, ht, hsame, hv, hhit, hmiss, -, -⟩ :=
    draw_row_loop (s.v x) (s.v y) { s with draw := 0, v := store s.v 0xF 0 } n
      (by omega) hvy hmem
  refine ⟨tick_timers (advance { t with draw := 1 }), ?_, ?_, ?_⟩
  · rw [process_instruction_of_fetch rnd s _ hop]
    simp only [execute, h1, exec_D, h2, h3, h4, ht, Option.map]
    rfl
  · rintro ⟨r, c, hr, hc, hb, hg⟩
    rw [tick_timers_v]
    exact hhit ⟨r, c, hr, hc, (sprite_bit_iff _ c hc).2 hb, hg⟩
  · intro hno
    have h0 := hmiss (fun ⟨r, c, hr, hc, hb, hg⟩ =>
      hno ⟨r, c, hr, hc, (sprite_bit_iff _ c hc).1 hb, hg⟩)
    rw [tick_timers_v]
    simpa using h0

/-- C2 on the glyph of 0 drawn over a lit top left cell: VF is 1 after the step. -/
theorem draw_collision_flag_witness :
    fetch draw_state = some 0xD015 ∧
    ∃ s', process_instruction 0 draw_state = some s' ∧ s'.v 0xF = 1 := by
  obtain ⟨s', h, hhit, -⟩ := draw_collision_flag 0 draw_state 0 1 5 (by decide) (by decide)
    (by decide) (by decide) (by decide) (by decide) (by decide)
  exact ⟨by decide, s', h, hhit ⟨0, 0, by decide, by decide, by decide, by decide⟩⟩

/-- C3: when the opcode is Fx0A and none of the 16 key flags is set, the step is
defined and returns the state with only the draw flag cleared: program counter,
timers, registers, index register, memory, stack, stack pointer and framebuffer are
unchanged. Hence after any number of steps of the host loop in which no key is down
the program counter and both timers have their initial values. -/
theorem key_wait_blocks (s : Chip8_state) (x : Nat) (hx : x < 16)
    (hop : fetch s = some (0xF00A + 0x100 * x))
    (hkeys : ∀ k, k < 16 → s.keyboard k = 0) :
    (∀ rnd, process_instruction rnd s = some { s with draw := 0 }) ∧
    ∀ (rnd : Nat → Nat) (keys : Nat → Nat → Nat), (∀ m j, j < 16 → keys m j = 0) →
      ∀ k, ∃ s', run rnd keys k s = some s' ∧ s'.pc = s.pc ∧
        s'.delay_timer = s.delay_timer ∧ s'.sound_timer = s.sound_timer := by
  refine ⟨fun rnd => key_wait_idle rnd s x hx hop hkeys, ?_⟩
  intro rnd keys hzero k
  suffices h : ∃ s', run rnd keys k s = some s' ∧ fetch s' = some (0xF00A + 0x100 * x) ∧
      s'.pc = s.pc ∧ s'.delay_timer = s.delay_timer ∧ s'.sound_timer = s.sound_timer by
    obtain ⟨s', h1, -, h2⟩ := h
    exact ⟨s', h1, h2⟩
  induction k with
  | zero => exact ⟨s, rfl, hop, rfl, rfl, rfl⟩
  | succ k ih =>
    obtain ⟨t, ht, hft, hpc, hd, hs⟩ := ih
    have hstep := key_wait_idle (rnd k) (set_keys (keys k) t) x hx hft (by
      intro j hj
      simp [set_keys, hj, hzero k j hj])
    exact ⟨{ set_keys (keys k) t with draw := 0 },
      by simp only [run, ht, Option.bind]; exact hstep, hft, hpc, hd, hs⟩

/-- C3 on a waiting state: a step returns the state itself (the draw flag was
already clear), and twenty steps later the timers still read 9 and 4. -/
theorem key_wait_blocks_witness :
    fetch key_wait_state = some 0xF30A ∧
    (∀ rnd, process_instruction rnd key_wait_state = some key_wait_state) ∧
    ∃ s', run (fun _ => 0) (fun _ _ => 0) 20 key_wait_state = some s' ∧ s'.pc = 0x200 ∧
      s'.delay_timer = 9 ∧ s'.sound_timer = 4 :=
  have h := key_wait_blocks key_wait_state 3 (by decide) (by decide) (by decide)
  ⟨by decide, h.1, h.2 (fun _ => 0) (fun _ _ => 0) (fun _ _ _ => rfl) 20⟩

/-- C4: when the opcode is Fx0A and some key flag is non-zero, the step is defined,
Vx holds the greatest index below 16 whose key flag is non-zero, the program counter
has advanced by exactly 2, and each timer that was non-zero is one less (a timer that
was zero stays zero). -/
theorem key_wait_takes_last_key (rnd : Nat) (s : Chip8_state) (x : Nat) (hx : x < 16)
    (hop : fetch s = some (0xF00A + 0x100 * x))
    (hkey : ∃ k, k < 16 ∧ s.keyboard k ≠ 0) :
    ∃ s' g, process_instruction rnd s = some s' ∧
      g < 16 ∧ s.keyboard g ≠ 0 ∧ (∀ j, j < 16 → s.keyboard j ≠ 0 → j ≤ g) ∧
      s'.v x = g ∧ s'.pc = s.pc + 2 ∧
      (s.delay_timer ≠ 0 → s'.delay_timer + 1 = s.delay_timer) ∧
      (s.sound_timer ≠ 0 → s'.sound_timer + 1 = s.sound_timer) ∧
      (s.delay_timer = 0 → s'.delay_timer = 0) ∧
      (s.sound_timer = 0 → s'.sound_timer = 0) := by
  have h1 : op_first (0xF00A + 0x100 * x) = 15 := by rw [op_first_eq]; omega
  have h2 : op_nn (0xF00A + 0x100 * x) = 10 := by rw [op_nn_eq]; omega
  have h3 : op_x (0xF00A + 0x100 * x) = x := by rw [op_x_eq]; omega
  have hpc := fetch_pc_lt s _ hop
  obtain ⟨g, hg, hdown, hmax⟩ := exists_last_key s.keyboard 16 hkey
  refine ⟨tick_timers (advance { s with draw := 0, v := store s.v x g }), g, ?_, hg, hdown,
    hmax, ?_, ?_, ?_, ?_, ?_, ?_⟩
  · rw [process_instruction_of_fetch rnd s _ hop]
    simp only [execute, h1, h2, h3, exec_F_wait, keyboard_size_eq]
    rw [key_scan_last x { s with draw := 0 } 16 g hg hdown hmax]
    simp
  · simp [advance]
  · simp [advance]; omega
  · intro h; rw [tick_timers_delay]; simp [advance]; omega
  · intro h; rw [tick_timers_sound]; simp [advance]; omega
  · intro h; rw [tick_timers_delay]; simp [advance, h]
  · intro h; rw [tick_timers_sound]; simp [advance, h]

/-- C4 with the keys 2 and 7 down: V3 receives 7, the later match of the scan. -/
theorem key_wait_takes_last_key_witness :
    fetch key_down_state = some 0xF30A ∧
    ∃ s', process_instruction 0 key_down_state = some s' ∧ s'.v 3 = 7 ∧ s'.pc = 0x202 ∧
      s'.delay_timer = 8 := by
  obtain ⟨s', g, hs, hg, hdown, hmax, hv, hpc, hd, -⟩ :=
    key_wait_takes_last_key 0 key_down_state 3 (by decide) (by decide) ⟨2, by decide, by decide⟩
  have h7 : 7 ≤ g := hmax 7 (by decide) (by decide)
  have hg7 : g = 7 := by
    by_contra hne
    have hlt : g < 16 := hg
    have : key_down_state.keyboard g = 0 := by
      have hcases : g = 8 ∨ g = 9 ∨ g = 10 ∨ g = 11 ∨ g = 12 ∨ g = 13 ∨ g = 14 ∨ g = 15 := by
        omega
      rcases hcases with h | h | h | h | h | h | h | h <;> subst h <;> decide
    exact hdown this
  have hd' := hd (by decide)
  refine ⟨by decide, s', hs, by rw [hv, hg7], hpc, ?_⟩
  have h9 : key_down_state.delay_timer = 9 := rfl
  omega

/-- C5: with a call 2nnn at the program counter P, a return 00EE at nnn, both fetches
inside memory, and a stack pointer of at most 14, two successive steps are defined and
end with the program counter at P + 2 and the stack pointer at its value before the
call. -/
theorem call_return_round_trip (r1 r2 : Nat) (s : Chip8_state) (nnn : Nat)
    (hnnn : nnn < 4096) (hsp : s.sp ≤ 14)
    (hcall : fetch s = some (0x2000 + nnn))
    (hret : fetch { s with pc := nnn } = some 0x00EE) :
    ∃ s1 s2, process_instruction r1 s = some s1 ∧ process_instruction r2 s1 = some s2 ∧
      s2.pc = s.pc + 2 ∧ s2.sp = s.sp := by
  have h1 : op_first (0x2000 + nnn) = 2 := by rw [op_first_eq]; omega
  have h2 : op_nnn (0x2000 + nnn) = nnn := by rw [op_nnn_eq]; omega
  have hpc := fetch_pc_lt s _ hcall
  have hsp1 : (s.sp + 1) % 65536 = s.sp + 1 := by omega
  have hlt : s.sp + 1 < 16 := by omega
  have hstep1 : process_instruction r1 s = some (tick_timers
      { s with draw := 0, sp := s.sp + 1, stack := store s.stack (s.sp + 1) s.pc, pc := nnn }) := by
    rw [process_instruction_of_fetch r1 s _ hcall]
    simp [execute, h1, h2, exec_2, hsp1, hlt]
  refine ⟨_, tick_timers (advance { (tick_timers
      { s with draw := 0, sp := s.sp + 1, stack := store s.stack (s.sp + 1) s.pc, pc := nnn })
      with draw := 0, pc := s.pc, sp := s.sp }), hstep1, ?_, ?_, ?_⟩
  · have hf : fetch (tick_timers
        { s with draw := 0, sp := s.sp + 1, stack := store s.stack (s.sp + 1) s.pc, pc := nnn })
        = some 0x00EE := by
      rw [← hret]
      simp [fetch]
    have hback : (s.sp + 1 + 65535) % 65536 = s.sp := by omega
    rw [process_instruction_of_fetch r2 _ _ hf]
    simp [execute, op_first, exec_0, hlt, hback]
  · simp [advance]; omega
  · simp [advance]

/-- C5 on a call from 0x200 to 0x300 at stack depth 3: the two steps come back to
0x202 at depth 3. -/
theorem call_return_round_trip_witness :
    fetch call_state = some 0x2300 ∧ fetch { call_state with pc := 0x300 } = some 0x00EE ∧
    ∃ s1 s2, process_instruction 0 call_state = some s1 ∧
      process_instruction 0 s1 = some s2 ∧ s2.pc = 0x202 ∧ s2.sp = 3 :=
  ⟨by decide, by decide,
    call_return_round_trip 0 0 call_state 0x300 (by decide) (by decide) (by decide) (by decide)⟩

/-- C6: for the opcode 00E0 the step is defined whatever the framebuffer holds, and
afterwards all 2048 framebuffer cells are 0, the draw flag is 1 and the program counter
has advanced by 2. -/
theorem clear_screen (rnd : Nat) (s : Chip8_state) (hop : fetch s = some 0x00E0) :
    ∃ s', process_instruction rnd s = some s' ∧
      (∀ k, k < 64 * 32 → s'.graphics k = 0) ∧ s'.draw = 1 ∧ s'.pc = s.pc + 2 := by
  have hpc := fetch_pc_lt s _ hop
  refine ⟨tick_timers (advance { s with
      graphics := fun k => if k < graphics_size then 0 else s.graphics k, draw := 1 }),
    ?_, ?_, ?_, ?_⟩
  · rw [process_instruction_of_fetch rnd s _ hop]
    simp [execute, op_first, exec_0]
  · intro k hk
    simp [advance]
    intro h
    omega
  · simp [advance]
  · simp [advance]; omega

/-- C6 on a framebuffer whose cells are all lit. -/
theorem clear_screen_witness :
    fetch clear_state = some 0x00E0 ∧
    ∃ s', process_instruction 0 clear_state = some s' ∧
      (∀ k, k < 64 * 32 → s'.graphics k = 0) ∧ s'.draw = 1 ∧ s'.pc = 0x202 :=
  ⟨by decide, clear_screen 0 clear_state (by decide)⟩

/-- C7: for an opcode 3xnn the step is defined, the program counter is the old one
plus 4 when Vx = nn and plus 2 otherwise (the sum stays below 65536, so the 16-bit
addition does not wrap), and registers, memory, index register, stack and framebuffer
are unchanged. -/
theorem skip_if_equal (rnd : Nat) (s : Chip8_state) (x nn : Nat) (hx : x < 16)
    (hnn : nn < 256) (hop : fetch s = some (0x3000 + 0x100 * x + nn)) :
    ∃ s', process_instruction rnd s = some s' ∧
      s'.pc = (if s.v x = nn then s.pc + 4 else s.pc + 2) ∧
      s'.pc = (s.pc + (if s.v x = nn then 4 else 2)) % 65536 ∧
      s'.v = s.v ∧ s'.memory = s.memory ∧ s'.i = s.i ∧ s'.stack = s.stack ∧
      s'.graphics = s.graphics := by
  have h1 : op_first (0x3000 + 0x100 * x + nn) = 3 := by rw [op_first_eq]; omega
  have h2 : op_nn (0x3000 + 0x100 * x + nn) = nn := by rw [op_nn_eq]; omega
  have h3 : op_x (0x3000 + 0x100 * x + nn) = x := by rw [op_x_eq]; omega
  have hpc := fetch_pc_lt s _ hop
  refine ⟨tick_timers { s with
      draw := 0, pc := (s.pc + (if s.v x = nn then 4 else 2)) % 65536 }, ?_, ?_, ?_, ?_⟩
  · rw [process_instruction_of_fetch rnd s _ hop]
    simp [execute, h1, h2, h3]
  · simp only [tick_timers_pc]
    split_ifs <;> omega
  · simp
  · simp

/-- C7 with V0 = 5 and the opcode 3005: the program counter moves from 0x200 to
0x204. -/
theorem skip_if_equal_witness :
    fetch skip_state = some 0x3005 ∧
    ∃ s', process_instruction 0 skip_state = some s' ∧ s'.pc = 0x204 ∧
      s'.v = skip_state.v := by
  obtain ⟨s', hs, hpc, -, hv, -⟩ :=
    skip_if_equal 0 skip_state 0 5 (by decide) (by decide) (by decide)
  exact ⟨by decide, s', hs, hpc, hv⟩

/-- C8: for an opcode 7xnn with x different from 0xF the step is defined, Vx becomes
(Vx + nn) mod 256, every other register, VF included, keeps its value, and the program
counter advances by 2. -/
theorem add_immediate (rnd : Nat) (s : Chip8_state) (x nn : Nat) (hx : x < 16)
    (hxF : x ≠ 0xF) (hnn : nn < 256) (hop : fetch s = some (0x7000 + 0x100 * x + nn)) :
    ∃ s', process_instruction rnd s = some s' ∧
      s'.v x = (s.v x + nn) % 256 ∧ (∀ j, j ≠ x → s'.v j = s.v j) ∧
      s'.v 0xF = s.v 0xF ∧ s'.pc = s.pc + 2 := by
  have h1 : op_first (0x7000 + 0x100 * x + nn) = 7 := by rw [op_first_eq]; omega
  have h2 : op_nn (0x7000 + 0x100 * x + nn) = nn := by rw [op_nn_eq]; omega
  have h3 : op_x (0x7000 + 0x100 * x + nn) = x := by rw [op_x_eq]; omega
  have hpc := fetch_pc_lt s _ hop
  refine ⟨tick_timers (advance { s with
      draw := 0, v := store s.v x ((s.v x + nn) % 256) }), ?_, ?_, ?_, ?_, ?_⟩
  · rw [process_instruction_of_fetch rnd s _ hop]
    simp [execute, h1, h2, h3]
  · simp [advance]
  · intro j hj
    simp [advance, store, hj]
  · simp [advance, store, Ne.symm hxF]
  · simp [advance]; omega

/-- C8 with V0 = 0xFF, VF = 1 and the opcode 7001: V0 wraps to 0 and VF is still 1. -/
theorem add_immediate_witness :
    fetch add_immediate_state = some 0x7001 ∧
    ∃ s', process_instruction 0 add_immediate_state = some s' ∧ s'.v 0 = 0x00 ∧
      s'.v 0xF = 1 ∧ s'.pc = 0x202 := by
  obtain ⟨s', hs, h0, -, hF, hpc⟩ :=
    add_immediate 0 add_immediate_state 0 1 (by decide) (by decide) (by decide) (by decide)
  exact ⟨by decide, s', hs, h0, hF, hpc⟩

/-- C10: for an opcode that matches no case of its family (family 0 other than 00E0
and 00EE, family 8 with low nibble outside 0..7 and E, family E with low byte outside
9E and A1, family F with low byte outside 07, 0A, 15, 18, 1E, 29, 33, 55, 65) the step
is defined, advances the program counter by exactly 2 and leaves memory, registers,
index register, stack, stack pointer, framebuffer and key state unchanged; the draw
flag is 0 and each timer is decremented unless it is 0. -/
theorem unrecognized_is_no_op (rnd : Nat) (s : Chip8_state) (op : Nat)
    (hop : fetch s = some op) (hun : unrecognized op) :
    ∃ s', process_instruction rnd s = some s' ∧ s'.pc = s.pc + 2 ∧
      s'.memory = s.memory ∧ s'.v = s.v ∧ s'.i = s.i ∧ s'.stack = s.stack ∧
      s'.sp = s.sp ∧ s'.graphics = s.graphics ∧ s'.keyboard = s.keyboard ∧
      s'.draw = 0 ∧
      s'.delay_timer = (if 0 < s.delay_timer then s.delay_timer - 1 else 0) ∧
      s'.sound_timer = (if 0 < s.sound_timer then s.sound_timer - 1 else 0) := by
  have hpc := fetch_pc_lt s _ hop
  have hlt := fetch_lt s _ hop
  have hstep : process_instruction rnd s = some (tick_timers (advance { s with draw := 0 })) := by
    rw [process_instruction_of_fetch rnd s _ hop]
    have hf := op_first_eq op
    have hn := op_n_eq op
    have hnn := op_nn_eq op
    rcases hun with ⟨h0, h1, h2⟩ | ⟨h8, hlow⟩ | ⟨hE, hlow⟩ | ⟨hF, hlow⟩
    · have h : op_first op = 0 := by omega
      simp [execute, h, exec_0, h1, h2]
    · have h : op_first op = 8 := by omega
      simp only [List.mem_cons, List.mem_singleton, not_or, List.not_mem_nil, not_false_eq_true,
        and_true] at hlow
      have hmod : op % 16 < 16 := Nat.mod_lt _ (by decide)
      have hc : op_n op = 8 ∨ op_n op = 9 ∨ op_n op = 10 ∨ op_n op = 11 ∨ op_n op = 12 ∨
          op_n op = 13 ∨ op_n op = 15 := by omega
      rcases hc with e | e | e | e | e | e | e <;> simp [execute, h, exec_8, e]
    · have h : op_first op = 14 := by omega
      simp only [List.mem_cons, List.mem_singleton, not_or, List.not_mem_nil, not_false_eq_true,
        and_true] at hlow
      rw [← hnn] at hlow
      simp [execute, h, exec_E, hlow.1, hlow.2]
    · have h : op_first op = 15 := by omega
      simp only [List.mem_cons, List.mem_singleton, not_or, List.not_mem_nil, not_false_eq_true,
        and_true] at hlow
      rw [← hnn] at hlow
      obtain ⟨a1, a2, a3, a4, a5, a6, a7, a8, a9⟩ := hlow
      simp [execute, h, exec_F, a1, a2, a3, a4, a5, a6, a7, a8, a9]
  refine ⟨_, hstep, ?_, ?_, ?_, ?_, ?_, ?_, ?_, ?_, ?_, ?_, ?_⟩
  · simp [advance]; omega
  · simp [advance]
  · simp [advance]
  · simp [advance]
  · simp [advance]
  · simp [advance]
  · simp [advance]
  · simp [advance]
  · simp [advance]
  · rw [tick_timers_delay]; simp only [advance]; split_ifs <;> omega
  · rw [tick_timers_sound]; simp only [advance]; split_ifs <;> omega

/-- C10 on the word 8129: nothing but the program counter, the draw flag and the
running delay timer differs after the step. -/
theorem unrecognized_is_no_op_witness :
    fetch unrecognized_state = some 0x8129 ∧ unrecognized 0x8129 ∧
    ∃ s', process_instruction 0 unrecognized_state = some s' ∧ s'.pc = 0x202 ∧
      s'.v = unrecognized_state.v ∧ s'.graphics = unrecognized_state.graphics ∧
      s'.delay_timer = 2 := by
  have hun : unrecognized 0x8129 := Or.inr (Or.inl ⟨by decide, by decide⟩)
  obtain ⟨s', hs, hpc, -, hv, -, -, -, hg, -, -, hd, -⟩ :=
    unrecognized_is_no_op 0 unrecognized_state 0x8129 (by decide) hun
  exact ⟨by decide, hun, s', hs, hpc, hv, hg, hd⟩

/-- C9: for every defined step that is not the blocked key wait, each timer ends one
below the value t it holds after the instruction's own effect when t is positive, and
at 0 when t is 0; t is Vx for Fx15 (delay timer) and Fx18 (sound timer) and the value
before the step otherwise. So a timer the step does not write stays 0 when it was 0,
and changes by at most 1. -/
theorem timer_tick (rnd : Nat) (s s' : Chip8_state) (op : Nat)
    (hop : fetch s = some op) (hstep : process_instruction rnd s = some s')
    (hdone : ¬ key_wait_blocked s op) :
    s'.delay_timer =
      (if 0 < delay_after_effect s op then delay_after_effect s op - 1 else 0) ∧
    s'.sound_timer =
      (if 0 < sound_after_effect s op then sound_after_effect s op - 1 else 0) ∧
    (¬ (op / 4096 = 0xF ∧ op % 256 = 0x15) →
      (s.delay_timer = 0 → s'.delay_timer = 0) ∧
      s'.delay_timer ≤ s.delay_timer ∧ s.delay_timer ≤ s'.delay_timer + 1) ∧
    (¬ (op / 4096 = 0xF ∧ op % 256 = 0x18) →
      (s.sound_timer = 0 → s'.sound_timer = 0) ∧
      s'.sound_timer ≤ s.sound_timer ∧ s.sound_timer ≤ s'.sound_timer + 1) := by
  rw [process_instruction_of_fetch rnd s _ hop] at hstep
  cases hex : execute rnd op { s with draw := 0 } with
  | none => simp [hex] at hstep
  | some r =>
    obtain ⟨t, b⟩ := r
    rw [hex] at hstep
    rcases execute_timers rnd op _ t b (fetch_lt s _ hop) hex with ⟨hb, hd, hs⟩ | ⟨-, hblk⟩
    · subst hb
      simp only [Option.map, if_true, Option.some.injEq] at hstep
      subst hstep
      have hd' : t.delay_timer = delay_after_effect s op := hd
      have hs' : t.sound_timer = sound_after_effect s op := hs
      rw [tick_timers_delay, tick_timers_sound, hd', hs']
      refine ⟨by split_ifs <;> omega, by split_ifs <;> omega, ?_, ?_⟩
      · intro hno
        simp only [delay_after_effect, hno, if_false]
        omega
      · intro hno
        simp only [sound_after_effect, hno, if_false]
        omega
    · exact absurd hblk hdone

/-- C9 on F215 with V2 = 0x40, delay timer 0 and sound timer 1: the delay timer ends
at 0x3F, one below the value just written, and the sound timer at 0. -/
theorem timer_tick_witness :
    fetch timer_state = some 0xF215 ∧
    ∃ s', process_instruction 0 timer_state = some s' ∧ ¬ key_wait_blocked timer_state 0xF215 ∧
      s'.delay_timer = 0x3F ∧ s'.sound_timer = 0 := by
  have hnb : ¬ key_wait_blocked timer_state 0xF215 := fun h => absurd h.2.1 (by decide)
  have hstep : process_instruction 0 timer_state =
      some (tick_timers (advance { timer_state with draw := 0, delay_timer := 0x40 })) :=
    rfl
  obtain ⟨hd, hs, -, -⟩ := timer_tick 0 timer_state _ 0xF215 (by decide) hstep hnb
  exact ⟨by decide, _, hstep, hnb, hd, hs⟩

/-- C11, as amended: `load_rom` raises an error only for a file that cannot be
opened or sized, never for a readable ROM of whatever length; for a readable ROM of
at most 3584 bytes it succeeds, the bytes are in memory from 0x200 on and every other
cell is unchanged. -/
theorem load_rom_without_capacity_test (state : Chip8_state) (bytes : List Nat) :
    (∀ e, load_rom state (Rom_file.readable bytes) ≠ Except.error e) ∧
    (bytes.length ≤ 3584 →
      ∃ s', load_rom state (Rom_file.readable bytes) = Except.ok (some s') ∧
        (∀ k, k < bytes.length → s'.memory (0x200 + k) = bytes.getD k 0) ∧
        (∀ j, (j < 0x200 ∨ 0x200 + bytes.length ≤ j) → s'.memory j = state.memory j)) := by
  constructor
  · intro e h
    simp only [load_rom] at h
    split_ifs at h
  · intro hlen
    refine ⟨{ state with memory := copy_block state.memory program_start bytes }, ?_, ?_, ?_⟩
    · have hfit : program_start + bytes.length ≤ memory_size := by
        rw [program_start_eq, memory_size_eq]; omega
      simp only [load_rom, hfit, if_true]
    · intro k hk
      have h1 : program_start ≤ 512 + k := by rw [program_start_eq]; omega
      have h2 : 512 + k < program_start + bytes.length := by rw [program_start_eq]; omega
      have hsub : 512 + k - program_start = k := by rw [program_start_eq]; omega
      simp only [copy_block]
      rw [if_pos ⟨h1, h2⟩, hsub]
    · intro j hj
      have h : ¬ (program_start ≤ j ∧ j < program_start + bytes.length) := by
        rw [program_start_eq]; omega
      simp only [copy_block, h, if_false]

/-- C11 as amended, on the two-byte ROM 00E0. -/
theorem load_rom_without_capacity_test_witness :
    ∃ s', load_rom initial_state (Rom_file.readable [0x00, 0xE0]) = Except.ok (some s') ∧
      s'.memory 0x200 = 0x00 ∧ s'.memory 0x201 = 0xE0 := by
  obtain ⟨s', h, hin, -⟩ :=
    (load_rom_without_capacity_test initial_state [0x00, 0xE0]).2 (by decide)
  exact ⟨s', h, hin 0 (by decide), hin 1 (by decide)⟩

/-- C11 fails as stated: a readable ROM of 3585 bytes is longer than the 3584 bytes
that fit, and `load_rom` does not answer with an error; the copy runs past the end of
memory. -/
theorem load_rom_oversized_not_rejected :
    3584 < oversized_rom.length ∧
    (∀ e, load_rom initial_state (Rom_file.readable oversized_rom) ≠ Except.error e) ∧
    load_rom initial_state (Rom_file.readable oversized_rom) = Except.ok none := by
  have hlen : oversized_rom.length = 3585 := List.length_replicate _ _
  have hrun : load_rom initial_state (Rom_file.readable oversized_rom) = Except.ok none := by
    have hbig : ¬ program_start + oversized_rom.length ≤ memory_size := by
      rw [hlen, program_start_eq, memory_size_eq]; omega
    simp only [load_rom, hbig, if_false]
  refine ⟨by omega, ?_, hrun⟩
  intro e h
  rw [hrun] at h
  cases h

/-- C12: for an opcode Fx55 with I + x at most 4096 the step is defined, memory[I + k]
holds Vk for every k below x, every other memory cell is unchanged, memory[I + x]
among them, so Vx itself is not stored; the registers are unchanged and the index
register is I + x + 1 (no 16-bit wrap occurs). -/
theorem store_registers_up_to_x (rnd : Nat) (s : Chip8_state) (x : Nat) (hx : x < 16)
    (hop : fetch s = some (0xF055 + 0x100 * x)) (hfit : s.i + x ≤ 4096) :
    ∃ s', process_instruction rnd s = some s' ∧
      (∀ k, k < x → s'.memory (s.i + k) = s.v k) ∧
      (∀ j, (j < s.i ∨ s.i + x ≤ j) → s'.memory j = s.memory j) ∧
      s'.memory (s.i + x) = s.memory (s.i + x) ∧
      s'.v = s.v ∧
      s'.i = s.i + x + 1 ∧ s'.i = (s.i + x + 1) % 65536 := by
  have h1 : op_first (0xF055 + 0x100 * x) = 15 := by rw [op_first_eq]; omega
  have h2 : op_nn (0xF055 + 0x100 * x) = 0x55 := by rw [op_nn_eq]; omega
  have h3 : op_x (0xF055 + 0x100 * x) = x := by rw [op_x_eq]; omega
  obtain ⟨mem, hrun, hin, hout⟩ := store_reg_loop { s with draw := 0 } x hfit
  have hi : (s.i + (x + 1)) % 65536 = s.i + x + 1 := by omega
  refine ⟨tick_timers (advance { s with draw := 0, memory := mem, i := s.i + x + 1 }),
    ?_, ?_, ?_, ?_, ?_, ?_, ?_⟩
  · rw [process_instruction_of_fetch rnd s _ hop]
    simp only [execute, h1, h2, h3, exec_F_55, hrun, Option.map, hi]
    rfl
  · intro k hk
    simpa [advance] using hin k hk
  · intro j hj
    simpa [advance] using hout j hj
  · simpa [advance] using hout (s.i + x) (Or.inr (Nat.le_refl _))
  · simp [advance]
  · simp [advance]
  · simp only [tick_timers_i, advance]
    omega

/-- C12 on F255 with I = 0x400: V0 and V1 are stored, the cell at I + 2 is not
written with V2 = 0x33, and I ends at 0x403. -/
theorem store_registers_up_to_x_witness :
    fetch store_registers_state = some 0xF255 ∧
    ∃ s', process_instruction 0 store_registers_state = some s' ∧
      s'.memory 0x400 = 0x11 ∧ s'.memory 0x401 = 0x22 ∧ s'.memory 0x402 = 0 ∧
      s'.i = 0x403 := by
  obtain ⟨s', h, hin, -, hx, -, hi, -⟩ :=
    store_registers_up_to_x 0 store_registers_state 2 (by decide) (by decide) (by decide)
  exact ⟨by decide, s', h, hin 0 (by decide), hin 1 (by decide), hx, hi⟩

/-- C13: for an opcode Fx33 with I + 2 inside memory, Vx being an 8-bit register
value, the step is defined and the cells h = memory[I], t = memory[I + 1],
u = memory[I + 2] satisfy h ≤ 2, t ≤ 9, u ≤ 9 and 100 h + 10 t + u = Vx; every other
memory cell is unchanged. -/
theorem decimal_digits (rnd : Nat) (s : Chip8_state) (x : Nat) (hx : x < 16)
    (hop : fetch s = some (0xF033 + 0x100 * x)) (hfit : s.i + 2 < 4096)
    (hbyte : s.v x < 256) :
    ∃ s', process_instruction rnd s = some s' ∧
      s'.memory s.i ≤ 2 ∧ s'.memory (s.i + 1) ≤ 9 ∧ s'.memory (s.i + 2) ≤ 9 ∧
      100 * s'.memory s.i + 10 * s'.memory (s.i + 1) + s'.memory (s.i + 2) = s.v x ∧
      (∀ j, j ≠ s.i → j ≠ s.i + 1 → j ≠ s.i + 2 → s'.memory j = s.memory j) := by
  have h1 : op_first (0xF033 + 0x100 * x) = 15 := by rw [op_first_eq]; omega
  have h2 : op_nn (0xF033 + 0x100 * x) = 0x33 := by rw [op_nn_eq]; omega
  have h3 : op_x (0xF033 + 0x100 * x) = x := by rw [op_x_eq]; omega
  have k0 : s.i < 4096 := by omega
  have k1 : s.i + 1 < 4096 := by omega
  refine ⟨tick_timers (advance { s with
      draw := 0
      memory := store (store (store s.memory s.i ((s.v x / 100) % 256))
        (s.i + 1) (((s.v x / 10) % 10) % 256)) (s.i + 2) (((s.v x % 100) % 10) % 256) }),
    ?_, ?_, ?_, ?_, ?_, ?_⟩
  · rw [process_instruction_of_fetch rnd s _ hop]
    simp [execute, h1, h2, h3, exec_F_33, write_memory, k0, k1, hfit]
  · simp [advance, store]
    omega
  · simp [advance, store]
    omega
  · simp [advance, store]
    omega
  · simp [advance, store]
    omega
  · intro j j0 j1 j2
    simp [advance, store, j0, j1, j2]

/-- C13 on V4 = 237: the three cells from I on hold 2, 3 and 7. -/
theorem decimal_digits_witness :
    fetch decimal_state = some 0xF433 ∧
    ∃ s', process_instruction 0 decimal_state = some s' ∧
      s'.memory 0x400 ≤ 2 ∧
      100 * s'.memory 0x400 + 10 * s'.memory 0x401 + s'.memory 0x402 = 237 := by
  obtain ⟨s', h, hh, -, -, hsum, -⟩ :=
    decimal_digits 0 decimal_state 4 (by decide) (by decide) (by decide) (by decide)
  exact ⟨by decide, s', h, hh, hsum⟩

/-- C14, as amended: for every state with the stack pointer below 16 and every opcode
other than a call 2nnn at stack pointer 15 and a return 00EE at stack pointer 0, a
defined step leaves the stack pointer below 16, and the stack access of the step (the
write of a call, the read of a return) is at an index below 16. -/
theorem stack_pointer_in_range (rnd : Nat) (s s' : Chip8_state) (op : Nat)
    (hsp : s.sp < 16) (hop : fetch s = some op)
    (hcall : ¬ (op / 4096 = 0x2 ∧ s.sp = 15)) (hret : ¬ (op = 0x00EE ∧ s.sp = 0))
    (hstep : process_instruction rnd s = some s') :
    s'.sp < 16 ∧ ∀ idx, stack_access s op = some idx → idx < 16 := by
  have hlt := fetch_lt s _ hop
  have hf := op_first_eq op
  obtain ⟨t, b, hex, hsp', -⟩ := process_instruction_result rnd s s' op hop hstep
  rw [hsp']
  constructor
  · by_cases h0 : op_first op = 0
    · simp only [execute, h0] at hex
      obtain ⟨h1, -⟩ := map_reaches_timers _ t b hex
      unfold exec_0 at h1
      split_ifs at h1 with hE0 hEE hguard
      · simp only [Option.some.injEq] at h1
        subst h1
        exact hsp
      · simp only [Option.some.injEq] at h1
        subst h1
        have hne : s.sp ≠ 0 := fun e => hret ⟨hEE, e⟩
        show (s.sp + 65535) % 65536 < 16
        omega
      · simp only [Option.some.injEq] at h1
        subst h1
        exact hsp
    by_cases h2 : op_first op = 2
    · simp only [execute, h2] at hex
      obtain ⟨h1, -⟩ := map_reaches_timers _ t b hex
      unfold exec_2 at h1
      dsimp only at h1
      split_ifs at h1 with hguard
      simp only [Option.some.injEq] at h1
      subst h1
      rw [stack_size_eq] at hguard
      exact hguard
    by_cases hD : op_first op = 13
    · simp only [execute, hD] at hex
      obtain ⟨h1, -⟩ := map_reaches_timers _ t b hex
      rw [exec_D_sp _ _ _ h1]
      exact hsp
    · rw [(execute_frame rnd op _ t b h0 h2 hD hex).1]
      exact hsp
  · intro idx hidx
    unfold stack_access at hidx
    split_ifs at hidx with hr hc
    · simp only [Option.some.injEq] at hidx
      omega
    · simp only [Option.some.injEq] at hidx
      have hne : s.sp ≠ 15 := fun e => hcall ⟨by omega, e⟩
      omega

/-- C14 as amended, on a call at stack pointer 3: the step ends at stack pointer 4
and writes the stack at index 4. -/
theorem stack_pointer_in_range_witness :
    fetch call_state = some 0x2300 ∧
    ∃ s', process_instruction 0 call_state = some s' ∧ s'.sp < 16 ∧
      ∀ idx, stack_access call_state 0x2300 = some idx → idx < 16 := by
  obtain ⟨s', hs⟩ := Option.isSome_iff_exists.1
    (by decide : (process_instruction 0 call_state).isSome = true)
  exact ⟨by decide, s', hs,
    stack_pointer_in_range 0 call_state s' 0x2300 (by decide) (by decide) (by decide)
      (by decide) hs⟩

/-- C14 fails as stated. A return at stack pointer 0 reads stack[0] and leaves the
stack pointer at 65535; a call at stack pointer 15 has its stack write at index 16,
outside the 16 entries, so the step has no defined result. -/
theorem stack_pointer_leaves_range :
    (return_at_bottom_state.sp < 16 ∧ fetch return_at_bottom_state = some 0x00EE ∧
      (process_instruction 0 return_at_bottom_state).map (fun t => t.sp) = some 65535) ∧
    (call_at_top_state.sp < 16 ∧ fetch call_at_top_state = some 0x2300 ∧
      stack_access call_at_top_state 0x2300 = some 16 ∧
      (process_instruction 0 call_at_top_state).isNone = true) := by
  decide

/-- C15 evaluated at the failing input: the jump 1FFF leaves the program counter at
4095; the host test admits that state to a step, and the fetch then reads the indices
4095 and 4096, the second outside the 4096 bytes of memory, so it has no defined
result. -/
theorem host_guard_admits_last_byte :
    (process_instruction 0 jump_to_end_state).map
        (fun t => (t.pc, host_admits t, fetch_reads t, fetch t)) =
      some (4095, true, [4095, 4096], none) ∧
    ¬ (4096 < memory_size) := by
  decide

/-- C16 evaluated at the failing input Vx = Vy = 5 with the opcode 8125: the
difference 0 needs no borrow, and the step leaves VF = 0 and V1 = 0. -/
theorem subtract_equal_clears_flag :
    fetch subtract_equal_state = some 0x8125 ∧
    (process_instruction 0 subtract_equal_state).map (fun t => (t.v 0xF, t.v 1)) =
      some (0, 0) := by
  decide

/-- C17 evaluated at the failing input Vx = 10, VF = 7 with the opcode 81F4: the flag
is 0, as for 10 + 7, and V1 is 10, the sum of 10 and the flag just written, not 17. -/
theorem add_flag_operand_is_overwritten :
    fetch add_flag_state = some 0x81F4 ∧
    (process_instruction 0 add_flag_state).map (fun t => (t.v 0xF, t.v 1)) =
      some (0, 10) := by
  decide

/-- C18, as amended: for every Dxyn step with Vx at most 63, Vy + n at most 31 and
I + n at most 4096 the step is defined and the cell of every set sprite bit (row r,
column c) is toggled at the flat index Vx + c + 64 (Vy + r). Every framebuffer cell
whose value changes is such a cell: it lies in the sprite row Vy + r at column Vx + c
when Vx + c is at most 63, and in the next row Vy + r + 1 at column Vx + c - 64 when
Vx + c exceeds 63. -/
theorem draw_spills_into_next_row (rnd : Nat) (s : Chip8_state) (x y n : Nat)
    (hx : x < 16) (hy : y < 16) (hn : n < 16)
    (hop : fetch s = some (0xD000 + 0x100 * x + 0x10 * y + n))
    (hvx : s.v x ≤ 63) (hvy : s.v y + n ≤ 31) (hmem : s.i + n ≤ 4096) :
    ∃ s', process_instruction rnd s = some s' ∧
      (∀ r c, r < n → c < 8 → (s.memory (s.i + r)).testBit (7 - c) = true →
        s'.graphics (s.v x + c + (s.v y + r) * 64) =
          (s.graphics (s.v x + c + (s.v y + r) * 64) ^^^ 1) % 256) ∧
      (∀ idx, s'.graphics idx ≠ s.graphics idx →
        ∃ r c, r < n ∧ c < 8 ∧ (s.memory (s.i + r)).testBit (7 - c) = true ∧
          idx = s.v x + c + (s.v y + r) * 64 ∧
          ((s.v x + c ≤ 63 ∧ idx / 64 = s.v y + r ∧ idx % 64 = s.v x + c) ∨
            (63 < s.v x + c ∧ idx / 64 = s.v y + r + 1 ∧ idx % 64 = s.v x + c - 64))) := by
  obtain ⟨s', hs, -, -, -, -, hflip, hkeep⟩ := draw_step rnd s x y n hx hy hn hop
    (fun r hr => by omega) (fun r hr => by omega)
  refine ⟨s', hs, ?_, ?_⟩
  · intro r c hr hc hb
    exact hflip _ ⟨r, c, hr, hc, (sprite_bit_iff _ c hc).2 hb, rfl⟩
  · intro idx hidx
    by_cases hcell : ∃ r c, r < n ∧ c < 8 ∧ s.memory (s.i + r) &&& (128 >>> c) ≠ 0 ∧
        idx = s.v x + c + (s.v y + r) * 64
    · obtain ⟨r, c, hr, hc, hb, he⟩ := hcell
      refine ⟨r, c, hr, hc, (sprite_bit_iff _ c hc).1 hb, he, ?_⟩
      by_cases hcol : s.v x + c ≤ 63
      · left
        refine ⟨hcol, ?_, ?_⟩ <;> omega
      · right
        refine ⟨by omega, ?_, ?_⟩ <;> omega
    · exact absurd (hkeep idx hcell) hidx

/-- C18 as amended, on the glyph byte 0xF0 drawn at column 62 of row 0: the third set
bit lands on the flat index 64, the first cell of row 1, which is lit. -/
theorem draw_spills_into_next_row_witness :
    fetch draw_at_edge_state = some 0xD011 ∧
    ∃ s', process_instruction 0 draw_at_edge_state = some s' ∧ s'.graphics 64 = 1 := by
  obtain ⟨s', hs, hflip, -⟩ := draw_spills_into_next_row 0 draw_at_edge_state 0 1 1
    (by decide) (by decide) (by decide) (by decide) (by decide) (by decide) (by decide)
  exact ⟨by decide, s', hs, hflip 0 2 (by decide) (by decide) (by decide)⟩

/-- C18 fails as stated: with Vx = 62, Vy = 0 and n = 1 the sprite has the single row
0, and the step changes the cell at flat index 64, column 0 of row 1, from 0 to 1. -/
theorem draw_changes_other_row :
    fetch draw_at_edge_state = some 0xD011 ∧
    draw_at_edge_state.v 0 ≤ 63 ∧ draw_at_edge_state.v 1 + 1 ≤ 31 ∧
    draw_at_edge_state.i + 1 ≤ 4096 ∧
    draw_at_edge_state.graphics 64 = 0 ∧
    (process_instruction 0 draw_at_edge_state).map (fun t => t.graphics 64) = some 1 ∧
    ¬ (draw_at_edge_state.v 1 ≤ 64 / 64 ∧ 64 / 64 ≤ draw_at_edge_state.v 1 + 1 - 1) := by
  decide

/-- C19: if every framebuffer cell of a state holds 0 or 1, so does every cell after
any defined step (a step without an out-of-range access); the value-initialised
start state has all cells 0; hence every state the host loop reaches from a loaded
start state has all cells at 0 or 1. -/
theorem framebuffer_cells_are_bits :
    (∀ rnd s s', framebuffer_bits s → process_instruction rnd s = some s' →
      framebuffer_bits s') ∧
    (∀ k, initial_state.graphics k = 0) ∧
    (∀ file s0, load_rom (load_font initial_state) file = Except.ok (some s0) →
      ∀ rnd keys k s', run rnd keys k s0 = some s' → framebuffer_bits s') := by
  refine ⟨step_keeps_bits, fun _ => rfl, ?_⟩
  intro file s0 hload
  have h0 : framebuffer_bits s0 := by
    cases file with
    | unopened => simp [load_rom] at hload
    | unsized => simp [load_rom] at hload
    | readable bytes =>
      simp only [load_rom] at hload
      split_ifs at hload
      · simp only [Except.ok.injEq, Option.some.injEq] at hload
        subst hload
        intro k _
        left
        rfl
      · simp at hload
  intro rnd keys k
  induction k with
  | zero =>
    intro s' hrun
    simp only [run, Option.some.injEq] at hrun
    subst hrun
    exact h0
  | succ k ih =>
    intro s' hrun
    simp only [run] at hrun
    cases hk : run rnd keys k s0 with
    | none => simp [hk] at hrun
    | some u =>
      rw [hk] at hrun
      exact step_keeps_bits (rnd k) (set_keys (keys k) u) s' (ih u hk) hrun

/-- C19 on the glyph of 0 drawn over a lit cell: the cells are bits before the step
and after it. -/
theorem framebuffer_cells_are_bits_witness :
    framebuffer_bits draw_state ∧
    ∃ s', process_instruction 0 draw_state = some s' ∧ framebuffer_bits s' := by
  have hbits : framebuffer_bits draw_state := by
    intro k _
    by_cases hk : k = 0
    · right
      subst hk
      rfl
    · left
      simp [draw_state, store, hk, initial_state]
  obtain ⟨s', hs⟩ := Option.isSome_iff_exists.1
    (by decide : (process_instruction 0 draw_state).isSome = true)
  exact ⟨hbits, s', hs, framebuffer_cells_are_bits.1 0 draw_state s' hbits hs⟩

/-- C20: for an opcode Dxyn with x and y different from 0xF, its accesses in range
(Vx at most 56, Vy + n at most 32, I + n at most 4096) and the framebuffer cells
8-bit values, two successive steps on the same Dxyn are defined and leave the
framebuffer equal to the one before the first step; the 8 n target cells of a draw
are pairwise distinct. -/
theorem draw_twice_restores (r1 r2 : Nat) (s : Chip8_state) (x y n : Nat)
    (hx : x < 16) (hy : y < 16) (hn : n < 16) (hxF : x ≠ 0xF) (hyF : y ≠ 0xF)
    (hop : fetch s = some (0xD000 + 0x100 * x + 0x10 * y + n))
    (hnext : fetch { s with pc := s.pc + 2 } = some (0xD000 + 0x100 * x + 0x10 * y + n))
    (hvx : s.v x ≤ 56) (hvy : s.v y + n ≤ 32) (hmem : s.i + n ≤ 4096)
    (hbytes : ∀ k, k < 2048 → s.graphics k < 256) :
    (∃ s1 s2, process_instruction r1 s = some s1 ∧ process_instruction r2 s1 = some s2 ∧
      s2.graphics = s.graphics) ∧
    (∀ r c r' c', r < n → c < 8 → r' < n → c' < 8 →
      s.v x + c + (s.v y + r) * 64 = s.v x + c' + (s.v y + r') * 64 → r = r' ∧ c = c') := by
  constructor
  · obtain ⟨s1, hs1, hm1, hi1, hpc1, hv1, hflip1, hkeep1⟩ :=
      draw_step r1 s x y n hx hy hn hop (fun r hr => by omega) (fun r hr => by omega)
    have hvx1 : s1.v x = s.v x := hv1 x hxF
    have hvy1 : s1.v y = s.v y := hv1 y hyF
    have hop1 : fetch s1 = some (0xD000 + 0x100 * x + 0x10 * y + n) := by
      rw [← hnext]
      exact fetch_congr _ _ hm1 hpc1
    obtain ⟨s2, hs2, -, -, -, -, hflip2, hkeep2⟩ :=
      draw_step r2 s1 x y n hx hy hn hop1 (fun r hr => by rw [hi1]; omega)
        (fun r hr => by rw [hvx1, hvy1]; omega)
    rw [hm1, hi1, hvx1, hvy1] at hflip2 hkeep2
    refine ⟨s1, s2, hs1, hs2, ?_⟩
    funext idx
    by_cases hcell : ∃ r c, r < n ∧ c < 8 ∧ s.memory (s.i + r) &&& (128 >>> c) ≠ 0 ∧
        idx = s.v x + c + (s.v y + r) * 64
    · rw [hflip2 idx hcell, hflip1 idx hcell]
      obtain ⟨r, c, hr, hc, -, he⟩ := hcell
      exact toggle_twice _ (hbytes idx (by omega))
    · rw [hkeep2 idx hcell, hkeep1 idx hcell]
  · intro r c r' c' hr hc hr' hc' he
    omega

/-- C20 on the glyph of 0 drawn twice over a lit top left cell: after the two steps
the framebuffer is the one before the first. -/
theorem draw_twice_restores_witness :
    fetch draw_twice_state = some 0xD015 ∧
    fetch { draw_twice_state with pc := 0x202 } = some 0xD015 ∧
    ∃ s1 s2, process_instruction 0 draw_twice_state = some s1 ∧
      process_instruction 0 s1 = some s2 ∧ s2.graphics = draw_twice_state.graphics := by
  have hbytes : ∀ k, k < 2048 → draw_twice_state.graphics k < 256 := by
    intro k _
    by_cases hk : k = 0
    · subst hk
      decide
    · simp [draw_twice_state, store, hk, initial_state]
  exact ⟨by decide, by decide,
    (draw_twice_restores 0 0 draw_twice_state 0 1 5 (by decide) (by decide) (by decide)
      (by decide) (by decide) (by decide) (by decide) (by decide) (by decide) (by decide)
      hbytes).1⟩

end WChip8
